import Mathlib

/-!
Verification development for the conversion-routing core of fco.tools.

Shallow embedding of:
  * `src/normalizeMimeType.ts` (MIME canonicalization),
  * `src/PriorityQueue.ts` (array-backed binary min-heap),
  * `src/TraversionGraph.ts` (cost model, graph build, Dijkstra-style path search),
  * the conversion executor (`attemptConvertPath` / `tryConvertByTraversing`).

Conventions used throughout:
  * JavaScript `number` is modelled by `ℚ` (all constants in the cost model are
    exact decimal fractions and only `+`, `*`, `min` and sign tests are used);
  * a TypeScript optional field `x?: T` is modelled by `Option T`;
  * `undefined`-vs-value distinctions that the code observes through JS
    truthiness are modelled explicitly at each use site.
-/

/-- Category field of a format: absent, a single tag, or an ordered list of tags
(`category?: Array<string> | string` in `FormatHandler.ts`). -/
inductive CategoryVal where
  | undef : CategoryVal
  | str : String → CategoryVal
  | list : List String → CategoryVal
deriving DecidableEq, Repr

/-- File-format descriptor (`FileFormat` in `FormatHandler.ts`).  The source
fields `from` and `to` are named `fromFlag` / `toFlag` because `from` is a Lean
keyword; `lossless?: boolean` defaults to `false` and is read only through JS
truthiness, so it is modelled as `Bool`. -/
structure FileFormat where
  name : String
  format : String
  extension : String
  mime : String
  internal : String
  fromFlag : Bool
  toFlag : Bool
  lossless : Bool
  category : CategoryVal
deriving DecidableEq, Repr

/-- MIME canonicalization (`normalizeMimeType.ts`): a fixed synonym table;
unknown inputs are returned unchanged. -/
def normalizeMimeType (mime : String) : String :=
  match mime with
  | "audio/x-wav" => "audio/wav"
  | "audio/vnd.wave" => "audio/wav"
  | "application/x-gzip" => "application/gzip"
  | "image/x-icon" => "image/vnd.microsoft.icon"
  | "image/vtf" => "image/x-vtf"
  | "image/aseprite" => "image/x-aseprite"
  | "application/x-aseprite" => "image/x-aseprite"
  | "image/qoi" => "image/x-qoi"
  | "video/bink" => "video/vnd.radgamettools.bink"
  | "video/binka" => "audio/vnd.radgamettools.bink"
  | "video/brstm" => "audio/brstm"
  | "audio/x-quicktime" => "video/quicktime"
  | "audio/x-flo" => "audio/flo"
  | "application/x-flo" => "audio/flo"
  | "application/x-lharc" => "application/x-lzh-compressed"
  | "application/lha" => "application/x-lzh-compressed"
  | "application/x-lha" => "application/x-lzh-compressed"
  | "application/x-lzh" => "application/x-lzh-compressed"
  | "application/x-mtga" => "application/vnd.sqlite3"
  | "audio/x-flac" => "audio/flac"
  | "application/font-sfnt" => "font/ttf"
  | "application/x-font-ttf" => "font/ttf"
  | "application/x-font-opentype" => "font/otf"
  | "application/font-woff" => "font/woff"
  | "application/x-font-woff" => "font/woff"
  | "application/font-woff2" => "font/woff2"
  | "application/x-font-woff2" => "font/woff2"
  | "application/musicxml" => "application/vnd.recordare.musicxml+xml"
  | "application/musicxml+xml" => "application/vnd.recordare.musicxml+xml"
  | "text/mathml" => "application/mathml+xml"
  | _ => mime

/-- Every string produced by the synonym table of `normalizeMimeType`. -/
def normalizeMimeTypeOutputs : List String :=
  ["audio/wav", "application/gzip", "image/vnd.microsoft.icon", "image/x-vtf",
   "image/x-aseprite", "image/x-qoi", "video/vnd.radgamettools.bink",
   "audio/vnd.radgamettools.bink", "audio/brstm", "video/quicktime",
   "audio/flo", "application/x-lzh-compressed", "application/vnd.sqlite3",
   "audio/flac", "font/ttf", "font/otf", "font/woff", "font/woff2",
   "application/vnd.recordare.musicxml+xml", "application/mathml+xml"]

theorem normalizeMimeType_cases (x : String) :
    normalizeMimeType x = x ∨ normalizeMimeType x ∈ normalizeMimeTypeOutputs := by
  unfold normalizeMimeType
  split
  all_goals first
    | exact Or.inr (by decide)
    | exact Or.inl rfl

theorem normalizeMimeType_outputs_fixed :
    ∀ y ∈ normalizeMimeTypeOutputs, normalizeMimeType y = y := by
  decide

/-- C9: MIME normalization is idempotent: `norm (norm x) = norm x` for every
input string; every output of the synonym table is a fixed point and unknown
inputs are returned unchanged. -/
theorem normalizeMimeType_idempotent (x : String) :
    normalizeMimeType (normalizeMimeType x) = normalizeMimeType x := by
  rcases normalizeMimeType_cases x with h | h
  · rw [h]; exact h
  · exact normalizeMimeType_outputs_fixed _ h

/-- File payload (`FileData` in `FormatHandler.ts`); byte values are irrelevant
to the modelled code, which only tests `bytes.length`. -/
structure FileData where
  name : String
  bytes : List Nat
deriving DecidableEq, Repr

/-- Format handler (`FormatHandler` in `FormatHandler.ts`), restricted to the
members the modelled code reads.  `init()` is modelled by `initResult`: an
exception, or the `supportedFormats` list the handler holds after a successful
`init()` (`none` when it stays unset).  `doConvert`'s input-format parameter is
`Option FileFormat` because `attemptConvertPath` passes the result of
`supportedFormats.find(...)!`, which is `undefined` at runtime when no
descriptor matches. -/
structure FormatHandler where
  name : String
  supportedFormats : Option (List FileFormat)
  ready : Bool
  initResult : Except String (Option (List FileFormat))
  doConvert : List FileData → Option FileFormat → FileFormat → Except String (List FileData)

/-- Path node (`ConvertPathNode` in `FormatHandler.ts`).  The handler is
`Option` because `searchPath` explicitly guards against `!to.handler`, so the
runtime value can be `undefined` even though the class field is not optional. -/
structure ConvertPathNode where
  handler : Option FormatHandler
  format : FileFormat

/-- Category-change table entry (`CategoryChangeCost` in `TraversionGraph.ts`);
the source field `from` is named `fromCat` (`from` is a Lean keyword) and `to`
is named `toCat` for symmetry. -/
structure CategoryChangeCost where
  fromCat : String
  toCat : String
  handler : Option String
  cost : ℚ
deriving DecidableEq, Repr

/-- Adaptive-cost table entry (`CategoryAdaptiveCost` in `TraversionGraph.ts`). -/
structure CategoryAdaptiveCost where
  categories : List String
  cost : ℚ
deriving DecidableEq, Repr

def DEPTH_COST : ℚ := 1
def DEFAULT_CATEGORY_CHANGE_COST : ℚ := 0.6
def LOSSY_COST_MULTIPLIER : ℚ := 1.4
def HANDLER_PRIORITY_COST : ℚ := 0.2
def FORMAT_PRIORITY_COST : ℚ := 0.05

/-- Default category-change table as initialized in `TraversionGraph`. -/
def defaultCategoryChangeCosts : List CategoryChangeCost :=
  [⟨"image", "video", none, 0.2⟩,
   ⟨"video", "image", none, 0.4⟩,
   ⟨"image", "audio", some "ffmpeg", 100⟩,
   ⟨"audio", "image", some "ffmpeg", 100⟩,
   ⟨"text", "audio", some "ffmpeg", 100⟩,
   ⟨"audio", "text", some "ffmpeg", 100⟩,
   ⟨"image", "audio", none, 1.4⟩,
   ⟨"audio", "image", none, 1⟩,
   ⟨"video", "audio", none, 1.4⟩,
   ⟨"audio", "video", none, 1⟩,
   ⟨"text", "image", none, 0.5⟩,
   ⟨"image", "text", none, 0.5⟩,
   ⟨"text", "audio", none, 0.6⟩]

/-- Default adaptive-cost table as initialized in `TraversionGraph`. -/
def defaultCategoryAdaptiveCosts : List CategoryAdaptiveCost :=
  [⟨["text", "image", "audio"], 15⟩,
   ⟨["image", "video", "audio"], 10000⟩,
   ⟨["audio", "video", "image"], 10000⟩]

/-- JS truthiness of an optional string (`undefined` and `""` are falsy). -/
def jsTruthyStr : Option String → Bool
  | none => false
  | some s => s ≠ ""

/-- JS truthiness of a category value: `undefined` and `""` are falsy, every
array (even empty) is truthy. -/
def jsTruthyCat : CategoryVal → Bool
  | .undef => false
  | .str s => s ≠ ""
  | .list _ => true

/-- Major part of a MIME string: `mime.split("/")[0]`. -/
def mimeMajor (mime : String) : String :=
  (mime.splitOn "/").headD ""

/-- Evaluation of `format.category || format.mime.split("/")[0]` under JS
truthiness: a falsy category (absent or `""`) falls back to the MIME major. -/
def categoryOrMime (c : CategoryVal) (mime : String) : CategoryVal :=
  if jsTruthyCat c then c else .str (mimeMajor mime)

/-- Promotion `Array.isArray(x) ? x : [x]` of a category value to a list. -/
def catAsList : CategoryVal → List String
  | .undef => []
  | .str s => [s]
  | .list l => l

/-- Lookup in the `handlerPairs` map of `costFunction`: the map is built with
`new Map(...)` from the handler-bearing entries keyed by `from + "->" + to`, so
a lookup returns the handler of the LAST matching entry (later pairs overwrite
earlier ones), or `undefined` when the key is absent. -/
def handlerPairsGet (table : List CategoryChangeCost) (key : String) : Option String :=
  (table.filterMap fun c =>
    if jsTruthyStr c.handler && (c.fromCat ++ "->" ++ c.toCat == key) then c.handler
    else none).getLast?

/-- Spread minimum `Math.min(...l)`; the `[]` branch (JS `Infinity`) is
unreachable in `costFunction`, which guards `costs.length === 0`. -/
def jsMathMin : List ℚ → ℚ
  | [] => 0
  | x :: xs => xs.foldl min x

/-- JS `Array.prototype.findIndex`: index of the first match, `-1` otherwise. -/
def jsFindIndex (p : α → Bool) (l : List α) : Int :=
  match l.findIdx? p with
  | some i => (i : Int)
  | none => -1

/-- Local `fromCategory` / `toCategory` of `costFunction`:
`format.category || format.mime.split("/")[0]`. -/
def formatCategoryVal (f : FileFormat) : CategoryVal :=
  categoryOrMime f.category f.mime

/-- Local `fromCategories` / `toCategories` of `costFunction`:
`Array.isArray(x) ? x : [x]` applied to the computed category value. -/
def formatCategories (f : FileFormat) : List String :=
  catAsList (formatCategoryVal f)

/-- Condition `fromCategories.some(c => toCategories.includes(c))` of
`costFunction`: the two formats share a category tag. -/
def sharesCategory (fromFmt toFmt : FileFormat) : Bool :=
  (formatCategories fromFmt).any fun c => (formatCategories toFmt).contains c

/-- Local `costs` of `costFunction`'s lenient branch: table entries matching
both category lists and the handler rule `(!c.handler && handlerPairs.get(key)
!== handler.toLowerCase()) || c.handler === handler.toLowerCase()`. -/
def lenientFilteredCosts (categoryChangeCosts : List CategoryChangeCost)
    (fromFmt toFmt : FileFormat) (handler : String) : List CategoryChangeCost :=
  categoryChangeCosts.filter fun c =>
    (formatCategories fromFmt).contains c.fromCat
    && (formatCategories toFmt).contains c.toCat
    && ((!(jsTruthyStr c.handler)
          && handlerPairsGet categoryChangeCosts (c.fromCat ++ "->" ++ c.toCat)
              != some handler.toLower)
        || c.handler == some handler.toLower)

/-- Amount added to `cost` by the category-change block of
`TraversionGraph.costFunction` (the code between the `handlerPairs` map and
the handler-priority addition). -/
def costFunctionCategoryPart (categoryChangeCosts : List CategoryChangeCost)
    (fromFmt toFmt : FileFormat) (strictCategories : Bool) (handler : String) : ℚ :=
  if jsTruthyCat (formatCategoryVal fromFmt) && jsTruthyCat (formatCategoryVal toFmt) then
    if strictCategories then
      categoryChangeCosts.foldl (fun totalCost c =>
        if (formatCategories fromFmt).contains c.fromCat
            && (formatCategories toFmt).contains c.toCat
            && (!(jsTruthyStr c.handler) || c.handler == some handler.toLower) then
          totalCost + c.cost
        else totalCost + DEFAULT_CATEGORY_CHANGE_COST) 0
    else if !(sharesCategory fromFmt toFmt) then
      if (lenientFilteredCosts categoryChangeCosts fromFmt toFmt handler).length = 0 then
        DEFAULT_CATEGORY_CHANGE_COST
      else jsMathMin ((lenientFilteredCosts categoryChangeCosts fromFmt toFmt handler).map (·.cost))
    else 0
  else if jsTruthyCat (formatCategoryVal fromFmt) || jsTruthyCat (formatCategoryVal toFmt) then
    DEFAULT_CATEGORY_CHANGE_COST
  else 0

/-- Format-position factor of `TraversionGraph.costFunction`:
`this.handlers.find(h => h.name === handler)?.supportedFormats?.findIndex(f =>
f.mime === to.format.mime) ?? 0`.  Note `?? 0` fires only when the handler or
its `supportedFormats` is missing; a failed `findIndex` yields `-1`. -/
def costFunctionFormatIdx (handlers : List FormatHandler) (handler : String)
    (toFmt : FileFormat) : Int :=
  match handlers.find? fun h => h.name == handler with
  | none => 0
  | some hobj =>
    match hobj.supportedFormats with
    | none => 0
    | some fmts => jsFindIndex (fun f => f.mime == toFmt.mime) fmts

/-- Edge-cost function (`TraversionGraph.costFunction`).  Parameters mirror the
source: the graph's `categoryChangeCosts` table and `handlers` list (the
`this` state it reads), the endpoint formats (the `index` components of the
source's `{format, index}` arguments are unused by the function and omitted),
the `strictCategories` flag, the declaring handler's name and its index in the
cache iteration.  The sequential `cost += ...` mutations of the source are the
sum below, in source order, with the lossy multiplication applied last. -/
def costFunction (categoryChangeCosts : List CategoryChangeCost)
    (handlers : List FormatHandler) (fromFmt toFmt : FileFormat)
    (strictCategories : Bool) (handler : String) (handlerIndex : Nat) : ℚ :=
  let cost3 := DEPTH_COST
    + costFunctionCategoryPart categoryChangeCosts fromFmt toFmt strictCategories handler
    + HANDLER_PRIORITY_COST * (handlerIndex : ℚ)
    + FORMAT_PRIORITY_COST * ((costFunctionFormatIdx handlers handler toFmt : Int) : ℚ)
  if !toFmt.lossless then cost3 * LOSSY_COST_MULTIPLIER else cost3

/-- In-place array write `l[i] = a` (JS semantics for `i ≤ l.length`: a write
one past the end appends; every use site keeps `i ≤ l.length`). -/
def listSet : List α → Nat → α → List α
  | [], _, a => [a]
  | _ :: xs, 0, a => a :: xs
  | x :: xs, i + 1, a => x :: listSet xs i a

theorem listSet_length_of_lt (l : List α) (i : Nat) (a : α) (h : i < l.length) :
    (listSet l i a).length = l.length := by
  induction l generalizing i with
  | nil => simp at h
  | cons x xs ih =>
    cases i with
    | zero => simp [listSet]
    | succ i => simp only [listSet, List.length_cons]; rw [ih]; simpa using h

theorem listSet_append (l : List α) (a : α) : listSet l l.length a = l ++ [a] := by
  induction l with
  | nil => rfl
  | cons x xs ih => simp [listSet, ih]

theorem getD_listSet_self (l : List α) (i : Nat) (a d : α) (h : i ≤ l.length) :
    (listSet l i a).getD i d = a := by
  induction l generalizing i with
  | nil =>
    cases i with
    | zero => rfl
    | succ i => simp at h
  | cons x xs ih =>
    cases i with
    | zero => rfl
    | succ i => simp only [listSet, List.getD_cons_succ]; exact ih i (by simpa using h)

theorem getD_listSet_ne (l : List α) (i : Nat) (a : α) (j : Nat) (d : α)
    (hi : i ≤ l.length) (hij : j ≠ i) : (listSet l i a).getD j d = l.getD j d := by
  induction l generalizing i j with
  | nil =>
    have hz : i = 0 := by simpa using hi
    subst hz
    cases j with
    | zero => exact absurd rfl hij
    | succ j => simp [listSet]
  | cons x xs ih =>
    cases i with
    | zero =>
      cases j with
      | zero => exact absurd rfl hij
      | succ j => simp [listSet]
    | succ i =>
      cases j with
      | zero => simp [listSet]
      | succ j =>
        simp only [listSet, List.getD_cons_succ]
        exact ih i j (by simpa using hi) (by omega)

theorem mem_listSet (l : List α) (i : Nat) (a x : α) (h : x ∈ listSet l i a) :
    x = a ∨ x ∈ l := by
  induction l generalizing i with
  | nil =>
    cases i <;> simp [listSet] at h <;> exact Or.inl h
  | cons y xs ih =>
    cases i with
    | zero =>
      rcases List.mem_cons.mp h with h | h
      · exact Or.inl h
      · exact Or.inr (List.mem_cons_of_mem _ h)
    | succ i =>
      rcases List.mem_cons.mp h with h | h
      · exact Or.inr (h ▸ List.mem_cons_self y xs)
      · rcases ih i h with h | h
        · exact Or.inl h
        · exact Or.inr (List.mem_cons_of_mem _ h)

theorem map_listSet (f : α → β) (l : List α) (i : Nat) (a : α) :
    (listSet l i a).map f = listSet (l.map f) i (f a) := by
  induction l generalizing i with
  | nil => cases i <;> rfl
  | cons x xs ih =>
    cases i with
    | zero => rfl
    | succ i => simp [listSet, ih]

theorem listSet_getD_eq_self (l : List α) (i : Nat) (d : α) (h : i < l.length) :
    listSet l i (l.getD i d) = l := by
  induction l generalizing i with
  | nil => simp at h
  | cons x xs ih =>
    cases i with
    | zero => rfl
    | succ i => simp only [listSet, List.getD_cons_succ]; rw [ih]; simpa using h

/-- Graph vertex (`Node` in `TraversionGraph.ts`): a MIME string plus the
indices of its outgoing edges. -/
structure Node where
  mime : String
  edges : List Nat
deriving DecidableEq, Repr

/-- Endpoint record `{format, index}` used by `init` and stored in edges. -/
structure FormatRef where
  format : FileFormat
  index : Nat
deriving DecidableEq, Repr

/-- Graph edge (`Edge` in `TraversionGraph.ts`); the source fields `from` and
`to` are named `fromRef` / `toRef` (`from` is a Lean keyword). -/
structure Edge where
  fromRef : FormatRef
  toRef : FormatRef
  handler : String
  cost : ℚ
deriving DecidableEq, Repr

/-- Traversion graph state (the private fields of class `TraversionGraph`). -/
structure TraversionGraph where
  disableSafeChecks : Bool
  handlers : List FormatHandler
  nodes : List Node
  edges : List Edge
  categoryChangeCosts : List CategoryChangeCost
  categoryAdaptiveCosts : List CategoryAdaptiveCost

/-- Freshly constructed graph (`new TraversionGraph(disableSafeChecks)`). -/
def TraversionGraph.new (disableSafeChecks : Bool) : TraversionGraph :=
  ⟨disableSafeChecks, [], [], [], defaultCategoryChangeCosts,
   defaultCategoryAdaptiveCosts⟩

/-- Inner `formats.forEach` of `TraversionGraph.init`: allocate or reuse a
vertex for each format's MIME and collect the handler's `fromIndices` /
`toIndices`. -/
def registerFormats (nodes : List Node) (formats : List FileFormat) :
    List Node × List FormatRef × List FormatRef :=
  formats.foldl (fun acc format =>
    let ns := acc.1
    let p : Nat × List Node :=
      match ns.findIdx? fun n => n.mime == format.mime with
      | some i => (i, ns)
      | none => (ns.length, ns ++ [⟨format.mime, []⟩])
    let fr := if format.fromFlag then acc.2.1 ++ [⟨format, p.1⟩] else acc.2.1
    let tr := if format.toFlag then acc.2.2 ++ [⟨format, p.1⟩] else acc.2.2
    (p.2, fr, tr)) (nodes, [], [])

/-- Nested `fromIndices.forEach / toIndices.forEach` of `TraversionGraph.init`:
push one edge per `(from, to)` pair with distinct vertex indices and record the
edge index (`edges.length - 1` after the push, i.e. the pre-push length) on the
source vertex.  An out-of-range `from.index` cannot occur; the `none` branch is
the vacuous fallback of the lookup. -/
def initHandlerEdges (categoryChangeCosts : List CategoryChangeCost)
    (handlers : List FormatHandler) (strictCategories : Bool)
    (handlerName : String) (handlerIndex : Nat)
    (st : List Node × List Edge) (fr tr : List FormatRef) :
    List Node × List Edge :=
  fr.foldl (fun st fromRef =>
    tr.foldl (fun st toRef =>
      if fromRef.index == toRef.index then st
      else
        let es := st.2 ++ [⟨fromRef, toRef, handlerName,
          costFunction categoryChangeCosts handlers fromRef.format toRef.format
            strictCategories handlerName handlerIndex⟩]
        let ns :=
          match st.1.get? fromRef.index with
          | some nd => listSet st.1 fromRef.index ⟨nd.mime, nd.edges ++ [st.2.length]⟩
          | none => st.1
        (ns, es)) st) st

/-- Body of the `supportedFormatCache.forEach` callback of
`TraversionGraph.init`: register the entry's formats, build the entry's edges
and increment `handlerIndex`. -/
def TraversionGraph.initStep (handlers : List FormatHandler)
    (strictCategories : Bool) (acc : TraversionGraph × Nat)
    (entry : String × List FileFormat) : TraversionGraph × Nat :=
  let gr := acc.1
  let r := registerFormats gr.nodes entry.2
  let st := initHandlerEdges gr.categoryChangeCosts handlers strictCategories
    entry.1 acc.2 (r.1, gr.edges) r.2.1 r.2.2
  ({ gr with nodes := st.1, edges := st.2 }, acc.2 + 1)

/-- Graph build (`TraversionGraph.init`): reset `nodes`/`edges`, store the
handler list, then fold over the supported-format cache in iteration order,
incrementing `handlerIndex` once per cache entry. -/
def TraversionGraph.init (g : TraversionGraph)
    (supportedFormatCache : List (String × List FileFormat))
    (handlers : List FormatHandler) (strictCategories : Bool) : TraversionGraph :=
  (supportedFormatCache.foldl (TraversionGraph.initStep handlers strictCategories)
    ({ g with handlers := handlers, nodes := [], edges := [] }, 0)).1

theorem foldl_preserves {α β : Type _} (P : β → Prop) (f : β → α → β)
    (h : ∀ b a, P b → P (f b a)) :
    ∀ (l : List α) (b : β), P b → P (l.foldl f b) := by
  intro l
  induction l with
  | nil => intro b hb; exact hb
  | cons a l ih => intro b hb; exact ih _ (h b a hb)

theorem jsFindIndex_ge (p : α → Bool) (l : List α) : (-1 : Int) ≤ jsFindIndex p l := by
  unfold jsFindIndex
  cases hidx : l.findIdx? p with
  | none => simp
  | some i => simp; omega

theorem costFunctionFormatIdx_ge (handlers : List FormatHandler) (handler : String)
    (toFmt : FileFormat) : (-1 : Int) ≤ costFunctionFormatIdx handlers handler toFmt := by
  unfold costFunctionFormatIdx
  cases handlers.find? fun h => h.name == handler with
  | none => norm_num
  | some hobj =>
    dsimp only
    cases hobj.supportedFormats with
    | none => norm_num
    | some fmts => exact jsFindIndex_ge _ _

theorem foldl_min_pos (l : List ℚ) :
    ∀ acc : ℚ, 0 < acc → (∀ x ∈ l, 0 < x) → 0 < l.foldl min acc := by
  induction l with
  | nil => intro acc hacc _; exact hacc
  | cons a l ih =>
    intro acc hacc hl
    exact ih _ (lt_min hacc (hl a (List.mem_cons_self a l))) fun x hx => hl x (List.mem_cons_of_mem _ hx)

theorem jsMathMin_pos (l : List ℚ) (hne : l ≠ []) (h : ∀ x ∈ l, 0 < x) :
    0 < jsMathMin l := by
  match l with
  | [] => exact absurd rfl hne
  | x :: xs =>
    exact foldl_min_pos xs x (h x (List.mem_cons_self x xs)) fun y hy => h y (List.mem_cons_of_mem _ hy)

theorem foldl_catStep_nonneg (p : CategoryChangeCost → Bool) (l : List CategoryChangeCost)
    (hl : ∀ c ∈ l, 0 < c.cost) :
    ∀ acc : ℚ, 0 ≤ acc →
      0 ≤ l.foldl (fun totalCost c =>
        if p c then totalCost + c.cost else totalCost + DEFAULT_CATEGORY_CHANGE_COST) acc := by
  induction l with
  | nil => intro acc hacc; exact hacc
  | cons c l ih =>
    intro acc hacc
    have hc := hl c (List.mem_cons_self c l)
    have hl' : ∀ d ∈ l, 0 < d.cost := fun d hd => hl d (List.mem_cons_of_mem _ hd)
    rw [List.foldl_cons]
    refine ih hl' _ ?_
    split
    · linarith
    · have : (0 : ℚ) ≤ DEFAULT_CATEGORY_CHANGE_COST := by norm_num [DEFAULT_CATEGORY_CHANGE_COST]
      linarith

theorem costFunctionCategoryPart_nonneg (tbl : List CategoryChangeCost)
    (fromFmt toFmt : FileFormat) (strict : Bool) (handler : String)
    (hpos : ∀ c ∈ tbl, 0 < c.cost) :
    0 ≤ costFunctionCategoryPart tbl fromFmt toFmt strict handler := by
  unfold costFunctionCategoryPart
  split_ifs with h1 h2 h3 h4 h5
  · exact foldl_catStep_nonneg _ tbl hpos 0 le_rfl
  · norm_num [DEFAULT_CATEGORY_CHANGE_COST]
  · refine le_of_lt (jsMathMin_pos _ ?_ ?_)
    · intro habs
      exact h4 (by rw [← List.length_map, habs]; rfl)
    · intro x hx
      obtain ⟨c, hc, rfl⟩ := List.mem_map.mp hx
      exact hpos c (List.mem_filter.mp hc).1
  · exact le_rfl
  · norm_num [DEFAULT_CATEGORY_CHANGE_COST]
  · exact le_rfl

theorem costFunction_pos (tbl : List CategoryChangeCost) (handlers : List FormatHandler)
    (fromFmt toFmt : FileFormat) (strict : Bool) (handler : String) (handlerIndex : Nat)
    (hpos : ∀ c ∈ tbl, 0 < c.cost) :
    0 < costFunction tbl handlers fromFmt toFmt strict handler handlerIndex := by
  have h1 := costFunctionCategoryPart_nonneg tbl fromFmt toFmt strict handler hpos
  have h2 : ((-1 : Int) : ℚ) ≤ ((costFunctionFormatIdx handlers handler toFmt : Int) : ℚ) := by
    exact_mod_cast costFunctionFormatIdx_ge handlers handler toFmt
  have h3 : (0 : ℚ) ≤ (handlerIndex : ℚ) := Nat.cast_nonneg handlerIndex
  have hbase : 0 < DEPTH_COST
      + costFunctionCategoryPart tbl fromFmt toFmt strict handler
      + HANDLER_PRIORITY_COST * (handlerIndex : ℚ)
      + FORMAT_PRIORITY_COST * ((costFunctionFormatIdx handlers handler toFmt : Int) : ℚ) := by
    unfold DEPTH_COST HANDLER_PRIORITY_COST FORMAT_PRIORITY_COST
    push_cast at h2
    nlinarith
  unfold costFunction
  split
  · have : (0 : ℚ) < LOSSY_COST_MULTIPLIER := by norm_num [LOSSY_COST_MULTIPLIER]
    exact mul_pos hbase this
  · exact hbase

theorem listSet_map_mime (ns : List Node) (i : Nat) (nd : Node) (x : List Nat)
    (h : ns.get? i = some nd) :
    (listSet ns i ⟨nd.mime, x⟩).map Node.mime = ns.map Node.mime := by
  obtain ⟨hlt, hnd⟩ := List.get?_eq_some.mp h
  rw [map_listSet]
  have hmime : (ns.map Node.mime).getD i "" = nd.mime := by
    have hlt' : i < (ns.map Node.mime).length := by simpa using hlt
    rw [List.getD_eq_getElem _ _ hlt', List.getElem_map]
    rw [← hnd]
    simp [List.get_eq_getElem]
  calc listSet (ns.map Node.mime) i nd.mime
      = listSet (ns.map Node.mime) i ((ns.map Node.mime).getD i "") := by rw [hmime]
    _ = ns.map Node.mime := listSet_getD_eq_self _ _ _ (by simpa using hlt)

theorem initHandlerEdges_map_mime (tbl : List CategoryChangeCost)
    (hs : List FormatHandler) (strict : Bool) (hn : String) (hidx : Nat)
    (st : List Node × List Edge) (fr tr : List FormatRef) :
    ((initHandlerEdges tbl hs strict hn hidx st fr tr).1).map Node.mime
      = st.1.map Node.mime := by
  unfold initHandlerEdges
  refine foldl_preserves
    (fun st' : List Node × List Edge => st'.1.map Node.mime = st.1.map Node.mime) _ ?_ fr st rfl
  intro st0 fromRef h0
  refine foldl_preserves
    (fun st' : List Node × List Edge => st'.1.map Node.mime = st.1.map Node.mime) _ ?_ tr st0 h0
  intro st1 toRef h1
  dsimp only
  split
  · exact h1
  · cases hg : st1.1.get? fromRef.index with
    | none => simpa [hg] using h1
    | some nd => rw [← h1]; simp only [hg]; exact listSet_map_mime st1.1 fromRef.index nd _ hg

theorem registerFormats_nodup (formats : List FileFormat) (nodes : List Node)
    (h : (nodes.map Node.mime).Nodup) :
    (((registerFormats nodes formats).1).map Node.mime).Nodup := by
  unfold registerFormats
  refine foldl_preserves
    (fun acc : List Node × List FormatRef × List FormatRef => (acc.1.map Node.mime).Nodup)
    _ ?_ formats (nodes, [], []) h
  intro acc format hacc
  dsimp only
  cases hidx : acc.1.findIdx? (fun n => n.mime == format.mime) with
  | some i => simpa [hidx] using hacc
  | none =>
    have hnotin : format.mime ∉ acc.1.map Node.mime := by
      intro hmem
      obtain ⟨n, hn, hmime⟩ := List.mem_map.mp hmem
      have hfalse := List.findIdx?_eq_none_iff.mp hidx n hn
      have hne : n.mime ≠ format.mime := by simpa using hfalse
      exact hne hmime
    simp only [hidx, List.map_append, List.map_cons, List.map_nil, List.nodup_append]
    refine ⟨hacc, List.nodup_singleton _, ?_⟩
    intro a ha hb
    simp only [List.mem_singleton] at hb
    subst hb
    exact hnotin ha

theorem initHandlerEdges_cost_pos (tbl : List CategoryChangeCost)
    (hs : List FormatHandler) (strict : Bool) (hn : String) (hidx : Nat)
    (st : List Node × List Edge) (fr tr : List FormatRef)
    (hpos : ∀ c ∈ tbl, 0 < c.cost) (hst : ∀ e ∈ st.2, 0 < e.cost) :
    ∀ e ∈ (initHandlerEdges tbl hs strict hn hidx st fr tr).2, 0 < e.cost := by
  unfold initHandlerEdges
  refine foldl_preserves
    (fun st' : List Node × List Edge => ∀ e ∈ st'.2, 0 < e.cost) _ ?_ fr st hst
  intro st0 fromRef h0
  refine foldl_preserves
    (fun st' : List Node × List Edge => ∀ e ∈ st'.2, 0 < e.cost) _ ?_ tr st0 h0
  intro st1 toRef h1
  dsimp only
  split
  · exact h1
  · intro e he
    simp only [List.mem_append, List.mem_singleton] at he
    rcases he with he | he
    · exact h1 e he
    · subst he
      exact costFunction_pos tbl hs fromRef.format toRef.format strict hn hidx hpos

/-- C5: every edge present in the graph after `init` has strictly positive
cost, provided every configured category-change cost is positive (true of the
shipped default table; in the `ℚ` model every value is finite). -/
theorem traversionGraph_init_edge_cost_pos (g : TraversionGraph)
    (cache : List (String × List FileFormat)) (handlers : List FormatHandler)
    (strict : Bool) (hpos : ∀ c ∈ g.categoryChangeCosts, 0 < c.cost) :
    ∀ e ∈ (g.init cache handlers strict).edges, 0 < e.cost := by
  unfold TraversionGraph.init
  refine (foldl_preserves
    (fun acc : TraversionGraph × Nat =>
      acc.1.categoryChangeCosts = g.categoryChangeCosts ∧ ∀ e ∈ acc.1.edges, 0 < e.cost)
    (TraversionGraph.initStep handlers strict) ?_ cache
    ({ g with handlers := handlers, nodes := [], edges := [] }, 0)
    ⟨rfl, by intro e he; simp at he⟩).2
  intro acc entry hacc
  unfold TraversionGraph.initStep
  refine ⟨hacc.1, ?_⟩
  refine initHandlerEdges_cost_pos acc.1.categoryChangeCosts handlers strict
    entry.1 acc.2 (_, acc.1.edges) _ _ ?_ hacc.2
  rw [hacc.1]
  exact hpos

theorem traversionGraph_init_nodes_mime_nodup (g : TraversionGraph)
    (cache : List (String × List FileFormat)) (handlers : List FormatHandler)
    (strict : Bool) :
    (((g.init cache handlers strict).nodes).map Node.mime).Nodup := by
  unfold TraversionGraph.init
  refine foldl_preserves
    (fun acc : TraversionGraph × Nat => ((acc.1.nodes).map Node.mime).Nodup)
    (TraversionGraph.initStep handlers strict) ?_ cache
    ({ g with handlers := handlers, nodes := [], edges := [] }, 0) (by simp)
  intro acc entry hacc
  unfold TraversionGraph.initStep
  rw [initHandlerEdges_map_mime]
  exact registerFormats_nodup entry.2 acc.1.nodes hacc

/-- C10: after any single call to `init` the vertex MIME strings are pairwise
distinct: for node indices `i ≠ j`, `nodes[i].mime ≠ nodes[j].mime`, so each
format MIME maps to at most one vertex. -/
theorem traversionGraph_init_mimes_pairwise_distinct (g : TraversionGraph)
    (cache : List (String × List FileFormat)) (handlers : List FormatHandler)
    (strict : Bool) (i j : Fin ((g.init cache handlers strict).nodes).length)
    (hij : i ≠ j) :
    (((g.init cache handlers strict).nodes).get i).mime
      ≠ (((g.init cache handlers strict).nodes).get j).mime := by
  intro heq
  have hnd := traversionGraph_init_nodes_mime_nodup g cache handlers strict
  have hi : (i : Nat) < (((g.init cache handlers strict).nodes).map Node.mime).length := by
    simp only [List.length_map]; exact i.2
  have hj : (j : Nat) < (((g.init cache handlers strict).nodes).map Node.mime).length := by
    simp only [List.length_map]; exact j.2
  have hget := (hnd.get_inj_iff (i := ⟨i, hi⟩) (j := ⟨j, hj⟩)).mp
  simp only [List.get_eq_getElem, List.getElem_map] at hget
  have hmk := hget (by simpa [List.get_eq_getElem] using heq)
  have hval := congrArg Fin.val hmk
  exact hij (Fin.ext hval)

/-- Entries selected by the handler rule as C3's wording states it: the entry's
handler equals `h`, or the entry has no handler and NO handler-specific entry
for the same `(from, to)` pair points at `h`. -/
def lenientEntriesClaim (tbl : List CategoryChangeCost) (fromFmt toFmt : FileFormat)
    (handler : String) : List CategoryChangeCost :=
  tbl.filter fun c =>
    (formatCategories fromFmt).contains c.fromCat
    && (formatCategories toFmt).contains c.toCat
    && (c.handler == some handler
        || (!(jsTruthyStr c.handler)
            && !(tbl.any fun d => jsTruthyStr d.handler && d.fromCat == c.fromCat
                  && d.toCat == c.toCat && d.handler == some handler)))

/-- Category-change component as C3's wording states it: zero when the category
lists share a tag, otherwise the minimum cost over `lenientEntriesClaim`, or
`DEFAULT_CATEGORY_CHANGE_COST` when no entry remains. -/
def lenientCategoryComponentClaim (tbl : List CategoryChangeCost)
    (fromFmt toFmt : FileFormat) (handler : String) : ℚ :=
  if sharesCategory fromFmt toFmt then 0
  else if (lenientEntriesClaim tbl fromFmt toFmt handler).length = 0 then
    DEFAULT_CATEGORY_CHANGE_COST
  else jsMathMin ((lenientEntriesClaim tbl fromFmt toFmt handler).map (·.cost))

/-- Entries selected by the handler rule as the code actually implements it:
the entry's handler equals the lowercased `h`, or the entry has no handler and
the LAST handler-specific entry whose `from + "->" + to` key matches does not
point at the lowercased `h` (the `handlerPairs` map is last-wins). -/
def lenientEntriesAmended (tbl : List CategoryChangeCost) (fromFmt toFmt : FileFormat)
    (handler : String) : List CategoryChangeCost :=
  tbl.filter fun c =>
    (formatCategories fromFmt).contains c.fromCat
    && (formatCategories toFmt).contains c.toCat
    && (c.handler == some handler.toLower
        || (!(jsTruthyStr c.handler)
            && handlerPairsGet tbl (c.fromCat ++ "->" ++ c.toCat) != some handler.toLower))

/-- Category-change component under the amended handler rule. -/
def lenientCategoryComponentAmended (tbl : List CategoryChangeCost)
    (fromFmt toFmt : FileFormat) (handler : String) : ℚ :=
  if sharesCategory fromFmt toFmt then 0
  else if (lenientEntriesAmended tbl fromFmt toFmt handler).length = 0 then
    DEFAULT_CATEGORY_CHANGE_COST
  else jsMathMin ((lenientEntriesAmended tbl fromFmt toFmt handler).map (·.cost))

/-- Shared trivial conversion behavior for the concrete example handlers. -/
def exDoConvert : List FileData → Option FileFormat → FileFormat → Except String (List FileData) :=
  fun files _ _ => .ok files

def cexFmtPng : FileFormat :=
  ⟨"PNG", "png", "png", "image/png", "png", true, true, true, .str "image"⟩

def cexFmtMp3 : FileFormat :=
  ⟨"MP3", "mp3", "mp3", "audio/mpeg", "mp3", true, true, true, .str "audio"⟩

/-- Default table extended with a second handler-specific `(image, audio)`
entry, which makes the last-wins `handlerPairs` map diverge from C3's "no
handler-specific entry points at h" rule. -/
def cexTbl3 : List CategoryChangeCost :=
  defaultCategoryChangeCosts ++ [⟨"image", "audio", some "zzz", 50⟩]

/-- C3 counterexample: with a table holding two handler-specific entries for
`(image, audio)` (`ffmpeg` and `zzz`), the code prices an `ffmpeg` image→audio
edge at `1 + 1.4` — the handler-free entry passes because the last-wins
`handlerPairs` map returns `zzz` — while the claim's rule excludes the
handler-free entry (an `ffmpeg`-specific entry exists) and predicts `1 + 100`. -/
theorem costFunction_lenient_claim_counterexample :
    costFunction cexTbl3 [] cexFmtPng cexFmtMp3 false "ffmpeg" 0
      ≠ DEPTH_COST + lenientCategoryComponentClaim cexTbl3 cexFmtPng cexFmtMp3 "ffmpeg" :=
  of_decide_eq_true (by with_unfolding_all rfl)

/-- C3 (amended): in lenient mode, for formats with truthy category values, the
edge cost decomposes as the lossy factor times depth cost plus the amended
category component plus the handler-position and format-position terms, and
`DEFAULT_CATEGORY_CHANGE_COST = 0.6`. -/
theorem costFunction_lenient_category_component (tbl : List CategoryChangeCost)
    (hs : List FormatHandler) (f t : FileFormat) (h : String) (idx : Nat)
    (hf : jsTruthyCat (formatCategoryVal f) = true)
    (ht : jsTruthyCat (formatCategoryVal t) = true) :
    costFunction tbl hs f t false h idx
      = (if t.lossless then 1 else LOSSY_COST_MULTIPLIER)
        * (DEPTH_COST + lenientCategoryComponentAmended tbl f t h
           + HANDLER_PRIORITY_COST * (idx : ℚ)
           + FORMAT_PRIORITY_COST * ((costFunctionFormatIdx hs h t : Int) : ℚ))
    ∧ DEFAULT_CATEGORY_CHANGE_COST = 0.6 := by
  have hfilter : lenientFilteredCosts tbl f t h = lenientEntriesAmended tbl f t h := by
    unfold lenientFilteredCosts lenientEntriesAmended
    apply List.filter_congr
    intro c _
    rw [Bool.or_comm]
  have hcomp : costFunctionCategoryPart tbl f t false h
      = lenientCategoryComponentAmended tbl f t h := by
    unfold costFunctionCategoryPart lenientCategoryComponentAmended
    rw [hf, ht]
    cases hsh : sharesCategory f t
    · simp [hsh, hfilter]
    · simp [hsh, hfilter]
  refine ⟨?_, rfl⟩
  unfold costFunction
  rw [hcomp]
  cases hl : t.lossless
  · simp [hl]
    ring
  · simp [hl]

theorem costFunction_lenient_category_component_witness :
    jsTruthyCat (formatCategoryVal cexFmtPng) = true
    ∧ jsTruthyCat (formatCategoryVal cexFmtMp3) = true
    ∧ (costFunction cexTbl3 [] cexFmtPng cexFmtMp3 false "ffmpeg" 0
        = (if cexFmtMp3.lossless then 1 else LOSSY_COST_MULTIPLIER)
          * (DEPTH_COST + lenientCategoryComponentAmended cexTbl3 cexFmtPng cexFmtMp3 "ffmpeg"
             + HANDLER_PRIORITY_COST * ((0 : Nat) : ℚ)
             + FORMAT_PRIORITY_COST * ((costFunctionFormatIdx [] "ffmpeg" cexFmtMp3 : Int) : ℚ))
        ∧ DEFAULT_CATEGORY_CHANGE_COST = 0.6) :=
  ⟨by decide, by decide,
   costFunction_lenient_category_component cexTbl3 [] cexFmtPng cexFmtMp3 "ffmpeg" 0
     (by decide) (by decide)⟩

/-- Format-position penalty factor as C4's wording states it: the position of
`t` (by MIME) within `h`'s `supportedFormats`, or `0` if it is not found
there. -/
def formatPositionClaim (handlers : List FormatHandler) (handler : String)
    (toFmt : FileFormat) : ℚ :=
  match handlers.find? fun h => h.name == handler with
  | none => 0
  | some hobj =>
    match hobj.supportedFormats with
    | none => 0
    | some fmts =>
      match fmts.findIdx? fun f => f.mime == toFmt.mime with
      | some i => (i : ℚ)
      | none => 0

/-- Format-position factor as the code actually computes it: the index of the
first format with `t`'s MIME in `h`'s `supportedFormats`; `-1` when the handler
is found and has a list but no entry matches (`findIndex` misses `?? 0`); `0`
only when the handler or its list is missing. -/
def formatPositionAmended (handlers : List FormatHandler) (handler : String)
    (toFmt : FileFormat) : Int :=
  match handlers.find? fun h => h.name == handler with
  | none => 0
  | some hobj =>
    match hobj.supportedFormats with
    | none => 0
    | some fmts =>
      match fmts.findIdx? fun f => f.mime == toFmt.mime with
      | some i => (i : Int)
      | none => -1

def cexFmtWavA : FileFormat :=
  ⟨"WAV", "wav", "wav", "audio/wav", "wav", true, true, true, .str "audio"⟩

/-- Handler whose `supportedFormats` does not contain the MIME of the edge's
target format, so `findIndex` returns `-1`. -/
def cexHandler4 : FormatHandler :=
  ⟨"h", some [cexFmtWavA], true, .ok none, exDoConvert⟩

/-- C4 counterexample: when the declaring handler is found and has a
`supportedFormats` list but the target MIME is absent from it, `findIndex`
yields `-1` and `?? 0` does not intercept it, so the cost is `1 - 0.05 = 0.95`
rather than the `1` the claim (penalty `0` when not found) predicts. -/
theorem costFunction_format_position_claim_counterexample :
    costFunction defaultCategoryChangeCosts [cexHandler4] cexFmtWavA cexFmtMp3 false "h" 0
      ≠ DEPTH_COST
        + costFunctionCategoryPart defaultCategoryChangeCosts cexFmtWavA cexFmtMp3 false "h"
        + HANDLER_PRIORITY_COST * ((0 : Nat) : ℚ)
        + FORMAT_PRIORITY_COST * formatPositionClaim [cexHandler4] "h" cexFmtMp3 :=
  of_decide_eq_true (by with_unfolding_all rfl)

/-- C4 (amended): the edge cost decomposes as the lossy factor times the sum of
depth cost, category component, handler-position term and the format-position
penalty `FORMAT_PRIORITY_COST * formatPositionAmended` (the penalty is `-0.05`,
not `0`, when the handler's list misses the target MIME); the penalty is added
before the lossy multiplication. -/
theorem costFunction_format_position_decomposition (tbl : List CategoryChangeCost)
    (hs : List FormatHandler) (f t : FileFormat) (strict : Bool) (h : String) (idx : Nat) :
    costFunction tbl hs f t strict h idx
      = (if t.lossless then 1 else LOSSY_COST_MULTIPLIER)
        * (DEPTH_COST + costFunctionCategoryPart tbl f t strict h
           + HANDLER_PRIORITY_COST * (idx : ℚ)
           + FORMAT_PRIORITY_COST * ((formatPositionAmended hs h t : Int) : ℚ)) := by
  have hidx : formatPositionAmended hs h t = costFunctionFormatIdx hs h t := by
    unfold formatPositionAmended costFunctionFormatIdx jsFindIndex
    rfl
  rw [hidx]
  unfold costFunction
  cases t.lossless
  · norm_num
    ring
  · norm_num

def exFmtJpg : FileFormat :=
  ⟨"JPEG", "jpg", "jpg", "image/jpeg", "jpg", true, true, false, .str "image"⟩

def exHandlerA : FormatHandler :=
  ⟨"a", some [cexFmtPng, exFmtJpg, cexFmtWavA], true, .ok none, exDoConvert⟩

def exCacheA : List (String × List FileFormat) :=
  [("a", [cexFmtPng, exFmtJpg, cexFmtWavA])]

/-- Concrete graph: one handler with PNG / JPEG / WAV, all flags set. -/
def exGraphA : TraversionGraph :=
  (TraversionGraph.new false).init exCacheA [exHandlerA] false

def exEdgeA0 : Edge :=
  exGraphA.edges.headD ⟨⟨cexFmtPng, 0⟩, ⟨cexFmtPng, 0⟩, "", 0⟩

theorem traversionGraph_init_edge_cost_pos_witness : 0 < exEdgeA0.cost :=
  traversionGraph_init_edge_cost_pos (TraversionGraph.new false) exCacheA [exHandlerA] false
    (of_decide_eq_true (by with_unfolding_all rfl)) exEdgeA0
    (of_decide_eq_true (by with_unfolding_all rfl))

theorem traversionGraph_init_mimes_pairwise_distinct_witness :
    (exGraphA.nodes.get ⟨0, of_decide_eq_true (by with_unfolding_all rfl)⟩).mime
      ≠ (exGraphA.nodes.get ⟨1, of_decide_eq_true (by with_unfolding_all rfl)⟩).mime :=
  traversionGraph_init_mimes_pairwise_distinct (TraversionGraph.new false) exCacheA
    [exHandlerA] false ⟨0, of_decide_eq_true (by with_unfolding_all rfl)⟩
    ⟨1, of_decide_eq_true (by with_unfolding_all rfl)⟩
    (of_decide_eq_true (by with_unfolding_all rfl))

/-- Array-backed binary min-heap (`PriorityQueue.ts`), specialised to the live
prefix of `_queue`: the JS class keeps stale slots past `_size` and a spare
capacity, but `add` / `poll` / `size` never read them (`poll`'s
`this._queue.slice(s, 1)` is a no-op), so the model stores exactly the `_size`
live elements.  The comparator returns a JS number (`ℚ` here); only its sign is
consumed.  The comparator-less `toString`-based code path is never exercised by
the repository (a comparator is always supplied) and is not modelled. -/
structure PriorityQueue (T : Type) where
  queue : List T
  comparator : T → T → ℚ

/-- Sift-up of the heap (`siftupUsingComparator`): bubble `item` from slot `k`
towards the root until its parent is no larger. -/
def siftupUsingComparator (cmp : T → T → ℚ) (q : List T) (k : Nat) (item : T) : List T :=
  if hk : 0 < k then
    let parent := (k - 1) / 2
    let e := q.getD parent item
    if cmp item e ≥ 0 then listSet q k item
    else siftupUsingComparator cmp (listSet q k e) parent item
  else listSet q 0 item
termination_by k
decreasing_by
  omega

/-- Child-selection step of `sinkUsingComparator`: the value and index of the
smaller child of slot `k` (`object`/`child` after the optional switch to
`right`; the comparator is consulted only when `right` is inside the live
region, mirroring the `&&` short-circuit). -/
def sinkChild (cmp : T → T → ℚ) (q : List T) (k : Nat) (item : T) : T × Nat :=
  if 2 * k + 1 + 1 < q.length ∧ cmp (q.getD (2 * k + 1) item) (q.getD (2 * k + 1 + 1) item) > 0
  then (q.getD (2 * k + 1 + 1) item, 2 * k + 1 + 1)
  else (q.getD (2 * k + 1) item, 2 * k + 1)

/-- Sift-down of the heap (`sinkUsingComparator`): push `item` from slot `k`
towards the leaves, always descending into the smaller child. -/
def sinkUsingComparator (cmp : T → T → ℚ) (q : List T) (k : Nat) (item : T) : List T :=
  if k < q.length / 2 then
    if cmp item (sinkChild cmp q k item).1 ≤ 0 then listSet q k item
    else sinkUsingComparator cmp (listSet q k (sinkChild cmp q k item).1)
      (sinkChild cmp q k item).2 item
  else listSet q k item
termination_by q.length - k
decreasing_by
  rw [listSet_length_of_lt q k _ (by omega)]
  unfold sinkChild
  split
  · dsimp only
    omega
  · dsimp only
    omega

/-- `PriorityQueue.add`: write at the end when empty, otherwise sift up from
the new slot. -/
def PriorityQueue.add (pq : PriorityQueue T) (item : T) : PriorityQueue T :=
  if pq.queue.length = 0 then { pq with queue := listSet pq.queue 0 item }
  else { pq with queue := siftupUsingComparator pq.comparator pq.queue pq.queue.length item }

/-- `PriorityQueue.poll`: `null` on empty, otherwise extract the root, move the
last element to the root and sift it down over the shrunken live region. -/
def PriorityQueue.poll (pq : PriorityQueue T) : Option T × PriorityQueue T :=
  match pq.queue with
  | [] => (none, pq)
  | r :: _ =>
    let s := pq.queue.length - 1
    let x := pq.queue.getD s r
    if s = 0 then (some r, { pq with queue := [] })
    else (some r, { pq with queue := sinkUsingComparator pq.comparator pq.queue.dropLast 0 x })

/-- `PriorityQueue.size`. -/
def PriorityQueue.size (pq : PriorityQueue T) : Nat :=
  pq.queue.length

theorem getD_congr (l : List α) (i : Nat) (d d' : α) (h : i < l.length) :
    l.getD i d = l.getD i d' := by
  rw [List.getD_eq_getElem _ _ h, List.getD_eq_getElem _ _ h]

theorem listSet_length_max (l : List α) (i : Nat) (a : α) (h : i ≤ l.length) :
    (listSet l i a).length = max l.length (i + 1) := by
  rcases lt_or_eq_of_le h with h | h
  · rw [listSet_length_of_lt l i a h]
    omega
  · subst h
    rw [listSet_append]
    simp

theorem lt_length_of_mem_listSet (l : List α) (i : Nat) (a : α) (hi : i ≤ l.length)
    (j : Nat) (hj : j < (listSet l i a).length) (hne : j ≠ i) : j < l.length := by
  have := listSet_length_max l i a hi
  omega

theorem self_lt_length_listSet (l : List α) (i : Nat) (a : α) (hi : i ≤ l.length) :
    i < (listSet l i a).length := by
  have := listSet_length_max l i a hi
  omega

/-- Min-heap property over the live region, read through a key function:
every non-root slot is no smaller than its parent. -/
def IsHeap [Inhabited T] (key : T → ℚ) (l : List T) : Prop :=
  ∀ j, 0 < j → j < l.length →
    key (l.getD ((j - 1) / 2) default) ≤ key (l.getD j default)

theorem isHeap_root_le [Inhabited T] (key : T → ℚ) (l : List T) (hheap : IsHeap key l) :
    ∀ j, j < l.length → key (l.getD 0 default) ≤ key (l.getD j default) := by
  intro j
  induction j using Nat.strong_induction_on with
  | _ j ih =>
    intro hj
    rcases Nat.eq_zero_or_pos j with h | h
    · subst h
      exact le_rfl
    · have hp : (j - 1) / 2 < j := by omega
      exact le_trans (ih _ hp (lt_trans hp hj)) (hheap j h hj)

theorem isHeap_root_le_mem [Inhabited T] (key : T → ℚ) (l : List T)
    (hheap : IsHeap key l) (x : T) (hx : x ∈ l) :
    key (l.getD 0 default) ≤ key x := by
  obtain ⟨n, hn⟩ := List.mem_iff_get.mp hx
  have : l.getD (n : Nat) default = x := by
    rw [List.getD_eq_getElem _ _ n.2, ← hn]
    simp [List.get_eq_getElem]
  rw [← this]
  exact isHeap_root_le key l hheap n n.2

/-- Writing `item` into slot `k` yields a heap provided the would-be parent of
`k` is no larger than `item`, the children of `k` are no smaller than `item`,
and every other parent/child pair already satisfies the heap order. -/
theorem listSet_isHeap [Inhabited T] (key : T → ℚ) (q : List T) (k : Nat) (item : T)
    (hk : k ≤ q.length)
    (Hpar : 0 < k → key (q.getD ((k - 1) / 2) default) ≤ key item)
    (H1 : ∀ j, 0 < j → j < q.length → j ≠ k → (j - 1) / 2 ≠ k →
      key (q.getD ((j - 1) / 2) default) ≤ key (q.getD j default))
    (H2 : ∀ j, 0 < j → j < q.length → (j - 1) / 2 = k →
      key item ≤ key (q.getD j default)) :
    IsHeap key (listSet q k item) := by
  intro j hj0 hjlen
  by_cases hjk : j = k
  · subst hjk
    have hpar_ne : (j - 1) / 2 ≠ j := by omega
    rw [getD_listSet_self q j item _ hk, getD_listSet_ne q j item _ _ hk hpar_ne]
    exact Hpar hj0
  · have hjq : j < q.length := lt_length_of_mem_listSet q k item hk j hjlen hjk
    rw [getD_listSet_ne q k item j _ hk hjk]
    by_cases hpk : (j - 1) / 2 = k
    · rw [hpk, getD_listSet_self q k item _ hk]
      exact H2 j hj0 hjq hpk
    · rw [getD_listSet_ne q k item _ _ hk hpk]
      exact H1 j hj0 hjq hjk hpk

theorem siftup_isHeap [Inhabited T] (key : T → ℚ) (cmp : T → T → ℚ)
    (hcmp : ∀ a b, cmp a b = key a - key b) :
    ∀ (k : Nat) (q : List T) (item : T), k ≤ q.length →
    (∀ j, 0 < j → j < q.length → j ≠ k → (j - 1) / 2 ≠ k →
      key (q.getD ((j - 1) / 2) default) ≤ key (q.getD j default)) →
    (∀ j, 0 < j → j < q.length → (j - 1) / 2 = k →
      key item ≤ key (q.getD j default)) →
    (0 < k → ∀ j, 0 < j → j < q.length → (j - 1) / 2 = k →
      key (q.getD ((k - 1) / 2) default) ≤ key (q.getD j default)) →
    IsHeap key (siftupUsingComparator cmp q k item) := by
  intro k
  induction k using Nat.strong_induction_on with
  | _ k ih =>
    intro q item hk H1 H2 H3
    unfold siftupUsingComparator
    split
    case isTrue hkpos =>
      show IsHeap key
        (if cmp item (q.getD ((k - 1) / 2) item) ≥ 0 then listSet q k item
         else siftupUsingComparator cmp (listSet q k (q.getD ((k - 1) / 2) item))
           ((k - 1) / 2) item)
      have hparlt : (k - 1) / 2 < k := by omega
      have hparq : (k - 1) / 2 < q.length := lt_of_lt_of_le hparlt hk
      have hE : q.getD ((k - 1) / 2) item = q.getD ((k - 1) / 2) default :=
        getD_congr q _ item default hparq
      split
      case isTrue hge =>
        refine listSet_isHeap key q k item hk ?_ H1 H2
        intro _
        rw [hcmp] at hge
        rw [← hE]
        linarith
      case isFalse hlt =>
        rw [hcmp] at hlt
        push_neg at hlt
        have hlt' : key item < key (q.getD ((k - 1) / 2) default) := by
          rw [← hE]
          linarith
        have hkq' : (k - 1) / 2 ≤ (listSet q k (q.getD ((k - 1) / 2) item)).length := by
          have := listSet_length_max q k (q.getD ((k - 1) / 2) item) hk
          omega
        refine ih ((k - 1) / 2) hparlt (listSet q k (q.getD ((k - 1) / 2) item)) item
          hkq' ?_ ?_ ?_
        · intro j hj0 hjlen hjp hpp
          have hjk : j ≠ k := by
            intro hjk
            subst hjk
            exact hpp rfl
          have hjq : j < q.length :=
            lt_length_of_mem_listSet q k (q.getD ((k - 1) / 2) item) hk j hjlen hjk
          rw [getD_listSet_ne q k (q.getD ((k - 1) / 2) item) j _ hk hjk]
          by_cases hpk : (j - 1) / 2 = k
          · rw [hpk, getD_listSet_self q k (q.getD ((k - 1) / 2) item) _ hk, hE]
            exact H3 hkpos j hj0 hjq hpk
          · rw [getD_listSet_ne q k (q.getD ((k - 1) / 2) item) _ _ hk hpk]
            exact H1 j hj0 hjq hjk hpk
        · intro j hj0 hjlen hjp
          by_cases hjk : j = k
          · subst hjk
            rw [getD_listSet_self q j (q.getD ((j - 1) / 2) item) _ hk, hE]
            exact le_of_lt hlt'
          · have hjq : j < q.length :=
              lt_length_of_mem_listSet q k (q.getD ((k - 1) / 2) item) hk j hjlen hjk
            rw [getD_listSet_ne q k (q.getD ((k - 1) / 2) item) j _ hk hjk]
            have hpk : (j - 1) / 2 ≠ k := by omega
            have step := H1 j hj0 hjq hjk hpk
            rw [hjp] at step
            linarith
        · intro hppos j hj0 hjlen hjp
          have hgp_ne : ((k - 1) / 2 - 1) / 2 ≠ k := by omega
          rw [getD_listSet_ne q k (q.getD ((k - 1) / 2) item) _ _ hk hgp_ne]
          have hgpar : key (q.getD (((k - 1) / 2 - 1) / 2) default)
              ≤ key (q.getD ((k - 1) / 2) default) :=
            H1 ((k - 1) / 2) hppos hparq (by omega) (by omega)
          by_cases hjk : j = k
          · subst hjk
            rw [getD_listSet_self q j (q.getD ((j - 1) / 2) item) _ hk, hE]
            exact hgpar
          · have hjq : j < q.length :=
              lt_length_of_mem_listSet q k (q.getD ((k - 1) / 2) item) hk j hjlen hjk
            rw [getD_listSet_ne q k (q.getD ((k - 1) / 2) item) j _ hk hjk]
            have hpk : (j - 1) / 2 ≠ k := by omega
            have step := H1 j hj0 hjq hjk hpk
            rw [hjp] at step
            linarith
    case isFalse hknp =>
      have hk0 : k = 0 := by omega
      subst hk0
      refine listSet_isHeap key q 0 item (by omega) (by omega) ?_ ?_
      · intro j hj0 hjq hjk hpk
        exact H1 j hj0 hjq hjk hpk
      · intro j hj0 hjq hpk
        exact H2 j hj0 hjq hpk

theorem getD_mem (l : List α) (i : Nat) (d : α) (h : i < l.length) : l.getD i d ∈ l := by
  rw [List.getD_eq_getElem _ _ h]
  exact List.getElem_mem h

theorem getD_dropLast (l : List α) (i : Nat) (d : α) (h : i < l.length - 1) :
    l.dropLast.getD i d = l.getD i d := by
  have h1 : i < l.dropLast.length := by
    rw [List.length_dropLast]
    exact h
  have h2 : i < l.length := by omega
  rw [List.getD_eq_getElem _ _ h1, List.getD_eq_getElem _ _ h2]
  exact List.getElem_dropLast l i h1

theorem sinkChild_cases (cmp : T → T → ℚ) (q : List T) (k : Nat) (item : T) :
    (sinkChild cmp q k item).2 = 2 * k + 1
    ∨ ((sinkChild cmp q k item).2 = 2 * k + 2 ∧ 2 * k + 2 < q.length) := by
  unfold sinkChild
  split
  case isTrue h => exact Or.inr ⟨rfl, by omega⟩
  case isFalse h => exact Or.inl rfl

theorem sinkChild_val (cmp : T → T → ℚ) (q : List T) (k : Nat) (item : T) :
    (sinkChild cmp q k item).1 = q.getD ((sinkChild cmp q k item).2) item := by
  unfold sinkChild
  split
  · rfl
  · rfl

theorem sinkChild_min [Inhabited T] (key : T → ℚ) (cmp : T → T → ℚ)
    (hcmp : ∀ a b, cmp a b = key a - key b) (q : List T) (k : Nat) (item : T)
    (hc : 2 * k + 1 < q.length) :
    key (sinkChild cmp q k item).1 ≤ key (q.getD (2 * k + 1) default)
    ∧ (2 * k + 2 < q.length →
        key (sinkChild cmp q k item).1 ≤ key (q.getD (2 * k + 2) default)) := by
  have e1 : q.getD (2 * k + 1) item = q.getD (2 * k + 1) default :=
    getD_congr q _ item default hc
  unfold sinkChild
  split
  case isTrue h =>
    obtain ⟨hr, hgt⟩ := h
    have e2 : q.getD (2 * k + 1 + 1) item = q.getD (2 * k + 1 + 1) default :=
      getD_congr q _ item default (by omega)
    rw [hcmp] at hgt
    constructor
    · dsimp only
      rw [e2, ← e1]
      have : (2 : Nat) * k + 1 + 1 = 2 * k + 2 := by omega
      rw [this] at e2 ⊢
      rw [← e2]
      linarith
    · intro _
      dsimp only
      have : (2 : Nat) * k + 1 + 1 = 2 * k + 2 := by omega
      rw [this, getD_congr q (2 * k + 2) item default (by omega)]
  case isFalse h =>
    push_neg at h
    constructor
    · dsimp only
      rw [e1]
    · intro hrlt
      have hle := h (by omega)
      rw [hcmp] at hle
      have e2 : q.getD (2 * k + 1 + 1) item = q.getD (2 * k + 1 + 1) default :=
        getD_congr q _ item default (by omega)
      dsimp only
      rw [e1] at hle ⊢
      rw [e2] at hle
      have : (2 : Nat) * k + 1 + 1 = 2 * k + 2 := by omega
      rw [this] at hle
      linarith

theorem sink_isHeap [Inhabited T] (key : T → ℚ) (cmp : T → T → ℚ)
    (hcmp : ∀ a b, cmp a b = key a - key b) :
    ∀ (n k : Nat) (q : List T) (item : T), q.length - k = n → k < q.length →
    (∀ j, 0 < j → j < q.length → j ≠ k → (j - 1) / 2 ≠ k →
      key (q.getD ((j - 1) / 2) default) ≤ key (q.getD j default)) →
    (0 < k → key (q.getD ((k - 1) / 2) default) ≤ key item) →
    (0 < k → ∀ j, 0 < j → j < q.length → (j - 1) / 2 = k →
      key (q.getD ((k - 1) / 2) default) ≤ key (q.getD j default)) →
    IsHeap key (sinkUsingComparator cmp q k item) := by
  intro n
  induction n using Nat.strong_induction_on with
  | _ n ih =>
    intro k q item hn hk H1 H2 H3
    unfold sinkUsingComparator
    split
    case isTrue hhalf =>
      have hc1 : 2 * k + 1 < q.length := by omega
      have hch := sinkChild_cases cmp q k item
      have hcidx_gt : k < (sinkChild cmp q k item).2 := by
        rcases hch with h | ⟨h, _⟩ <;> omega
      have hcidx_lt : (sinkChild cmp q k item).2 < q.length := by
        rcases hch with h | ⟨h, h2⟩ <;> omega
      have hcpar : ((sinkChild cmp q k item).2 - 1) / 2 = k := by
        rcases hch with h | ⟨h, _⟩ <;> omega
      have hmin := sinkChild_min key cmp hcmp q k item hc1
      have hval : key (sinkChild cmp q k item).1
          = key (q.getD ((sinkChild cmp q k item).2) default) := by
        rw [sinkChild_val]
        exact congrArg key (getD_congr q _ item default hcidx_lt)
      have hchildren : ∀ j, 0 < j → j < q.length → (j - 1) / 2 = k →
          key (sinkChild cmp q k item).1 ≤ key (q.getD j default) := by
        intro j hj0 hjq hpj
        have hj12 : j = 2 * k + 1 ∨ j = 2 * k + 2 := by omega
        rcases hj12 with rfl | rfl
        · exact hmin.1
        · exact hmin.2 hjq
      split
      case isTrue hle =>
        rw [hcmp] at hle
        refine listSet_isHeap key q k item (le_of_lt hk) H2 H1 ?_
        intro j hj0 hjq hpj
        have := hchildren j hj0 hjq hpj
        linarith
      case isFalse hgt =>
        rw [hcmp] at hgt
        push_neg at hgt
        have hlen' : (listSet q k (sinkChild cmp q k item).1).length = q.length :=
          listSet_length_of_lt _ _ _ hk
        have hgetk : (listSet q k (sinkChild cmp q k item).1).getD k default
            = (sinkChild cmp q k item).1 :=
          getD_listSet_self _ _ _ _ (le_of_lt hk)
        have hgetne : ∀ i, i ≠ k →
            (listSet q k (sinkChild cmp q k item).1).getD i default = q.getD i default :=
          fun i hi => getD_listSet_ne q k _ i default (le_of_lt hk) hi
        refine ih (q.length - (sinkChild cmp q k item).2) (by omega)
          ((sinkChild cmp q k item).2) (listSet q k (sinkChild cmp q k item).1) item
          (by rw [hlen']) (by rw [hlen']; exact hcidx_lt) ?_ ?_ ?_
        · intro j hj0 hjlen hjne hpne
          rw [hlen'] at hjlen
          by_cases hjk : j = k
          · subst hjk
            rw [hgetne _ (by omega), hgetk, hval]
            exact H3 hj0 _ (by omega) hcidx_lt hcpar
          · by_cases hpk : (j - 1) / 2 = k
            · rw [hpk, hgetk, hgetne j hjk]
              exact hchildren j hj0 hjlen hpk
            · rw [hgetne _ hpk, hgetne j hjk]
              exact H1 j hj0 hjlen hjk hpk
        · intro _
          rw [hcpar, hgetk]
          linarith
        · intro _ j hj0 hjlen hpj
          rw [hlen'] at hjlen
          rw [hcpar, hgetk]
          have hjk : j ≠ k := by omega
          rw [hgetne j hjk, hval]
          have step := H1 j hj0 hjlen hjk (by omega)
          rw [hpj] at step
          exact step
    case isFalse hnh =>
      push_neg at hnh
      refine listSet_isHeap key q k item (le_of_lt hk) H2 H1 ?_
      intro j hj0 hjq hpj
      exfalso
      omega

theorem mem_siftup (cmp : T → T → ℚ) :
    ∀ (k : Nat) (q : List T) (item x : T), k ≤ q.length →
      x ∈ siftupUsingComparator cmp q k item → x = item ∨ x ∈ q := by
  intro k
  induction k using Nat.strong_induction_on with
  | _ k ih =>
    intro q item x hk hx
    unfold siftupUsingComparator at hx
    split at hx
    case isTrue hkpos =>
      rw [show (if cmp item (q.getD ((k - 1) / 2) item) ≥ 0 then listSet q k item
          else siftupUsingComparator cmp (listSet q k (q.getD ((k - 1) / 2) item))
            ((k - 1) / 2) item)
        = if cmp item (q.getD ((k - 1) / 2) item) ≥ 0 then listSet q k item
          else siftupUsingComparator cmp (listSet q k (q.getD ((k - 1) / 2) item))
            ((k - 1) / 2) item from rfl] at hx
      split at hx
      · exact mem_listSet _ _ _ _ hx
      · have hpar : (k - 1) / 2 < q.length := by omega
        have hkq' : (k - 1) / 2 ≤ (listSet q k (q.getD ((k - 1) / 2) item)).length := by
          have := listSet_length_max q k (q.getD ((k - 1) / 2) item) hk
          omega
        rcases ih ((k - 1) / 2) (by omega) _ item x hkq' hx with h | h
        · exact Or.inl h
        · rcases mem_listSet _ _ _ _ h with h | h
          · exact Or.inr (h ▸ getD_mem q ((k - 1) / 2) item hpar)
          · exact Or.inr h
    case isFalse =>
      exact mem_listSet _ _ _ _ hx

theorem mem_sink (cmp : T → T → ℚ) :
    ∀ (n k : Nat) (q : List T) (item x : T), q.length - k = n → k < q.length →
      x ∈ sinkUsingComparator cmp q k item → x = item ∨ x ∈ q := by
  intro n
  induction n using Nat.strong_induction_on with
  | _ n ih =>
    intro k q item x hn hk hx
    unfold sinkUsingComparator at hx
    split at hx
    case isTrue hhalf =>
      split at hx
      · exact mem_listSet _ _ _ _ hx
      · have hcidx_gt : k < (sinkChild cmp q k item).2 := by
          rcases sinkChild_cases cmp q k item with h | ⟨h, _⟩ <;> omega
        have hcidx_lt : (sinkChild cmp q k item).2 < q.length := by
          rcases sinkChild_cases cmp q k item with h | ⟨h, h2⟩ <;> omega
        have hlen' : (listSet q k (sinkChild cmp q k item).1).length = q.length :=
          listSet_length_of_lt _ _ _ hk
        rcases ih (q.length - (sinkChild cmp q k item).2) (by omega) _ _ item x
          (by rw [hlen']) (by rw [hlen']; exact hcidx_lt) hx with h | h
        · exact Or.inl h
        · rcases mem_listSet _ _ _ _ h with h | h
          · refine Or.inr (h ▸ ?_)
            rw [sinkChild_val]
            exact getD_mem q _ item hcidx_lt
          · exact Or.inr h
    case isFalse =>
      exact mem_listSet _ _ _ _ hx

theorem PriorityQueue.add_comparator (pq : PriorityQueue T) (item : T) :
    (pq.add item).comparator = pq.comparator := by
  unfold PriorityQueue.add
  split
  · rfl
  · rfl

theorem PriorityQueue.add_isHeap [Inhabited T] (key : T → ℚ) (pq : PriorityQueue T)
    (item : T) (hcmp : ∀ a b, pq.comparator a b = key a - key b)
    (hheap : IsHeap key pq.queue) : IsHeap key (pq.add item).queue := by
  unfold PriorityQueue.add
  split
  case isTrue h =>
    intro j hj0 hjlen
    have hq : pq.queue = [] := List.length_eq_zero.mp h
    rw [hq] at hjlen
    simp [listSet] at hjlen
    omega
  case isFalse h =>
    refine siftup_isHeap key pq.comparator hcmp pq.queue.length pq.queue item le_rfl
      ?_ ?_ ?_
    · intro j hj0 hjq _ _
      exact hheap j hj0 hjq
    · intro j hj0 hjq hpk
      exfalso
      omega
    · intro _ j hj0 hjq hpk
      exfalso
      omega

theorem PriorityQueue.mem_add (pq : PriorityQueue T) (item x : T)
    (hx : x ∈ (pq.add item).queue) : x = item ∨ x ∈ pq.queue := by
  unfold PriorityQueue.add at hx
  split at hx
  · exact mem_listSet _ _ _ _ hx
  · exact mem_siftup pq.comparator pq.queue.length pq.queue item x le_rfl hx

theorem PriorityQueue.poll_cons_eq (pq : PriorityQueue T) (r0 : T) (rest : List T)
    (hq : pq.queue = r0 :: rest) :
    pq.poll =
      if pq.queue.length - 1 = 0 then (some r0, { pq with queue := [] })
      else (some r0, { pq with queue := (sinkUsingComparator pq.comparator pq.queue.dropLast 0
        (pq.queue.getD (pq.queue.length - 1) r0)) }) := by
  unfold PriorityQueue.poll
  rw [hq]

theorem PriorityQueue.poll_spec [Inhabited T] (key : T → ℚ) (pq : PriorityQueue T)
    (r : T) (pq' : PriorityQueue T)
    (hcmp : ∀ a b, pq.comparator a b = key a - key b)
    (hheap : IsHeap key pq.queue)
    (hpoll : pq.poll = (some r, pq')) :
    r ∈ pq.queue
    ∧ (∀ x ∈ pq.queue, key r ≤ key x)
    ∧ IsHeap key pq'.queue
    ∧ (∀ x ∈ pq'.queue, x ∈ pq.queue)
    ∧ pq'.comparator = pq.comparator := by
  have hnil : pq.queue ≠ [] := by
    intro h
    have hpnone : pq.poll = (none, pq) := by
      unfold PriorityQueue.poll
      rw [h]
    rw [hpnone] at hpoll
    exact absurd (congrArg Prod.fst hpoll) (by simp)
  obtain ⟨r0, rest, hq⟩ := List.exists_cons_of_ne_nil hnil
  have hlen0 : 0 < pq.queue.length := by
    rw [hq]
    simp
  rw [PriorityQueue.poll_cons_eq pq r0 rest hq] at hpoll
  have hroot : ∀ x ∈ pq.queue, key r0 ≤ key x := by
    intro x hx
    have h0 : pq.queue.getD 0 default = r0 := by rw [hq]; rfl
    rw [← h0]
    exact isHeap_root_le_mem key pq.queue hheap x hx
  by_cases hs : pq.queue.length - 1 = 0
  · rw [if_pos hs] at hpoll
    have hr : r0 = r := by
      have := congrArg Prod.fst hpoll
      simpa using this
    have hpq' : pq' = { pq with queue := [] } := by
      have := congrArg Prod.snd hpoll
      simpa using this.symm
    subst hr
    subst hpq'
    refine ⟨by rw [hq]; exact List.mem_cons_self r0 rest, hroot, ?_, ?_, rfl⟩
    · intro j hj0 hjlen
      simp at hjlen
    · intro x hx
      simp at hx
  · rw [if_neg hs] at hpoll
    have hr : r0 = r := by
      have := congrArg Prod.fst hpoll
      simpa using this
    have hpq' : pq' = { pq with queue := (sinkUsingComparator pq.comparator
        pq.queue.dropLast 0 (pq.queue.getD (pq.queue.length - 1) r0)) } := by
      have := congrArg Prod.snd hpoll
      simpa using this.symm
    subst hr
    subst hpq'
    have hdl : pq.queue.dropLast.length = pq.queue.length - 1 :=
      List.length_dropLast pq.queue
    have hlast_mem : pq.queue.getD (pq.queue.length - 1) r0 ∈ pq.queue :=
      getD_mem pq.queue _ r0 (by omega)
    refine ⟨by rw [hq]; exact List.mem_cons_self r0 rest, hroot, ?_, ?_, rfl⟩
    · refine sink_isHeap key pq.comparator hcmp pq.queue.dropLast.length 0
        pq.queue.dropLast _ rfl (by omega) ?_ ?_ ?_
      · intro j hj0 hjlen hjne hpne
        have hj2 : j < pq.queue.length - 1 := by omega
        have hp2 : (j - 1) / 2 < pq.queue.length - 1 := by omega
        rw [getD_dropLast pq.queue j default hj2,
          getD_dropLast pq.queue ((j - 1) / 2) default hp2]
        exact hheap j hj0 (by omega)
      · intro h0
        exact absurd h0 (by omega)
      · intro h0
        exact absurd h0 (by omega)
    · intro x hx
      rcases mem_sink pq.comparator pq.queue.dropLast.length 0 pq.queue.dropLast _ x
        rfl (by omega) hx with h | h
      · exact h ▸ hlast_mem
      · exact List.mem_of_mem_dropLast h

/-- Frontier record of `searchPath` (`QueueNode` in `TraversionGraph.ts`). -/
structure QueueNode where
  index : Nat
  cost : ℚ
  path : List ConvertPathNode
  visitedBorder : Nat

instance : Inhabited QueueNode := ⟨⟨0, 0, [], 0⟩⟩

/-- Safety-check membership test `[x.format.category].flat().includes(tag)`:
a single tag matches itself, a list matches any member, an absent category
matches nothing. -/
def catFlatIncludes (c : CategoryVal) (tag : String) : Bool :=
  match c with
  | .undef => false
  | .str s => s == tag
  | .list l => l.contains tag

/-- Safety check of `searchPath`: scan for three consecutive path nodes whose
(flattened) categories contain `image`, `video`, `audio` in that order; the
loop breaks as soon as fewer than three nodes remain. -/
def hasImageVideoAudioTriple : List ConvertPathNode → Bool
  | a :: b :: c :: rest =>
    (catFlatIncludes a.format.category "image"
      && catFlatIncludes b.format.category "video"
      && catFlatIncludes c.format.category "audio")
    || hasImageVideoAudioTriple (b :: c :: rest)
  | _ => false

/-- Category tokens of a path (`categoriesInPath` in `calculateAdaptiveCost`):
`p.format.category || p.format.mime.split("/")[0]` per node. -/
def categoriesInPath (path : List ConvertPathNode) : List CategoryVal :=
  path.map fun p => formatCategoryVal p.format

/-- JS indexing with a possibly negative index (`undefined` when outside). -/
def jsIndexCat (l : List CategoryVal) (i : Int) : Option CategoryVal :=
  if 0 ≤ i then l.get? i.toNat else none

/-- JS indexing with a possibly negative index (`undefined` when outside). -/
def jsIndexStr (l : List String) (i : Int) : Option String :=
  if 0 ≤ i then l.get? i.toNat else none

/-- JS strict equality between a path token (a category value or `undefined`)
and a table category (a string or `undefined`): only a string token can equal a
string; an array token equals nothing; two `undefined`s are equal.  A token of
the form `some .undef` never arises (the token computation always falls back to
the MIME major part). -/
def jsTokenEq : Option CategoryVal → Option String → Bool
  | none, none => true
  | some (.str s), some t => s == t
  | _, _ => false

/-- Inner `while (true)` scan of `calculateAdaptiveCost` for one adaptive
entry: walk the path tokens and the entry's categories from the end; a token
equal to the current category consumes both, a token equal to the previously
matched category (an interior repeat) consumes only the path position, anything
else stops the scan.  Returns whether the entry's cost is added. -/
def adaptiveLoop (catPath : List CategoryVal) (cats : List String)
    (pathPtr catPtr : Int) : Bool :=
  if jsTokenEq (jsIndexCat catPath pathPtr) (jsIndexStr cats catPtr) then
    if catPtr - 1 < 0 then true
    else if pathPtr - 1 < 0 then false
    else adaptiveLoop catPath cats (pathPtr - 1) (catPtr - 1)
  else if catPtr + 1 < (cats.length : Int)
      && jsTokenEq (jsIndexCat catPath pathPtr) (jsIndexStr cats (catPtr + 1)) then
    if pathPtr - 1 < 0 then false
    else adaptiveLoop catPath cats (pathPtr - 1) catPtr
  else false
termination_by (pathPtr + 1).toNat
decreasing_by
  · omega
  · omega

/-- Adaptive path cost (`TraversionGraph.calculateAdaptiveCost`): sum of the
costs of the adaptive entries whose category sequence matches a suffix of the
path's category tokens. -/
def calculateAdaptiveCost (categoryAdaptiveCosts : List CategoryAdaptiveCost)
    (path : List ConvertPathNode) : ℚ :=
  categoryAdaptiveCosts.foldl (fun cost c =>
    if adaptiveLoop (categoriesInPath path) c.categories
        ((categoriesInPath path).length - 1 : Int) ((c.categories.length : Int) - 1)
    then cost + c.cost else cost) 0

/-- Expansion step of `searchPath` (the `forEach` over the current vertex's
outgoing edges): skip destinations first visited before the popped frame's
border, skip edges whose handler cannot be resolved, otherwise extend the path
and enqueue with cost `current.cost + edge.cost + adaptive(newPath)` and
border `visited.length` (the visited list already holds the current vertex).
Out-of-range node/edge indices cannot occur after `init`; the fallbacks are
vacuous. -/
def expandStep (g : TraversionGraph) (current : QueueNode) (visited : List Nat)
    (q : PriorityQueue QueueNode) (edgeIndex : Nat) : PriorityQueue QueueNode :=
  match g.edges.get? edgeIndex with
  | none => q
  | some edge =>
    if 0 ≤ jsFindIndex (fun v => v == edge.toRef.index) visited
        ∧ jsFindIndex (fun v => v == edge.toRef.index) visited
          < (current.visitedBorder : Int) then q
    else
      match g.handlers.find? (fun h => h.name == edge.handler) with
      | none => q
      | some handler =>
        q.add ⟨edge.toRef.index,
          current.cost + edge.cost + calculateAdaptiveCost g.categoryAdaptiveCosts
            (current.path ++ [⟨some handler, edge.toRef.format⟩]),
          current.path ++ [⟨some handler, edge.toRef.format⟩],
          visited.length⟩

def expandEdges (g : TraversionGraph) (current : QueueNode) (visited : List Nat)
    (queue : PriorityQueue QueueNode) : PriorityQueue QueueNode :=
  ((g.nodes.getD current.index ⟨"", []⟩).edges).foldl (expandStep g current visited) queue

/-- Yield guard of `searchPath`:
`simpleMode || !to.handler || to.handler.name === current.path.at(-1)?.handler.name`.
`path.at(-1)` of an empty path is `undefined` (never equal to a name); a last
node with an undefined handler would make the JS throw — unreachable for
search-built paths — and is modelled as a non-match. -/
def searchYieldOk (toNode : ConvertPathNode) (simpleMode : Bool)
    (path : List ConvertPathNode) : Bool :=
  simpleMode ||
    match toNode.handler with
    | none => true
    | some th =>
      match path.getLast? with
      | none => false
      | some lastNode =>
        match lastNode.handler with
        | none => false
        | some lh => th.name == lh.name

/-- Main `while (queue.size() > 0)` loop of `searchPath`, run for at most
`fuel` iterations; returns the frames yielded, in order.  Skipped frames
(revisits, safety rejections, handler mismatches) only emit events, which are
not modelled. -/
def searchLoop (g : TraversionGraph) (toNode : ConvertPathNode) (toIndex : Nat)
    (simpleMode : Bool) : Nat → PriorityQueue QueueNode → List Nat → List QueueNode
  | 0, _, _ => []
  | fuel + 1, queue, visited =>
    match queue.poll with
    | (none, _) => []
    | (some current, queue') =>
      if 0 ≤ jsFindIndex (fun v => v == current.index) visited
          ∧ jsFindIndex (fun v => v == current.index) visited
            < (current.visitedBorder : Int) then
        searchLoop g toNode toIndex simpleMode fuel queue' visited
      else if current.index == toIndex then
        if !g.disableSafeChecks && hasImageVideoAudioTriple current.path then
          searchLoop g toNode toIndex simpleMode fuel queue' visited
        else if searchYieldOk toNode simpleMode current.path then
          current :: searchLoop g toNode toIndex simpleMode fuel queue' visited
        else
          searchLoop g toNode toIndex simpleMode fuel queue' visited
      else
        searchLoop g toNode toIndex simpleMode fuel
          (expandEdges g current (visited ++ [current.index]) queue')
          (visited ++ [current.index])

/-- Path search (`TraversionGraph.searchPath`): locate the source and target
vertices by MIME (yield nothing when either is absent), seed the priority
queue with the zero-cost source frame, and run the Dijkstra-style loop.  The
async generator is modelled by the list of frames it yields within `fuel`
loop iterations. -/
def TraversionGraph.searchPath (g : TraversionGraph) (fromNode toNode : ConvertPathNode)
    (simpleMode : Bool) (fuel : Nat) : List QueueNode :=
  let fromIndex := jsFindIndex (fun node => node.mime == fromNode.format.mime) g.nodes
  let toIndex := jsFindIndex (fun node => node.mime == toNode.format.mime) g.nodes
  if fromIndex == -1 || toIndex == -1 then []
  else
    searchLoop g toNode toIndex.toNat simpleMode fuel
      ((PriorityQueue.mk [] fun a b => a.cost - b.cost).add
        ⟨fromIndex.toNat, 0, [fromNode], 0⟩) []

/-! ### C1: order of the yielded costs -/

/-- Claim-side chain check: follow the edges named by `edgeIdxs` starting at
vertex `i`, requiring each edge to leave the vertex reached so far, and return
the final vertex (or `none` when an index is dangling or mismatched). -/
def chainEndIndex (g : TraversionGraph) : Nat → List Nat → Option Nat
  | i, [] => some i
  | i, eIdx :: rest =>
    match g.edges.get? eIdx with
    | none => none
    | some e => if e.fromRef.index == i then chainEndIndex g e.toRef.index rest else none

/-- The node path realized by an edge-index list: the source node followed by
one node per traversed edge, carrying the handler resolved by name exactly as
the search loop does. -/
def pathViaEdges (g : TraversionGraph) (fromNode : ConvertPathNode)
    (edgeIdxs : List Nat) : List ConvertPathNode :=
  fromNode :: edgeIdxs.filterMap (fun eIdx =>
    (g.edges.get? eIdx).map (fun e =>
      ⟨g.handlers.find? (fun h => h.name == e.handler), e.toRef.format⟩))

/-- Total cost of a path under the claim's cost model, accumulated exactly as
an uninterrupted expansion would: each traversed edge contributes its edge cost
plus the adaptive addition computed on the path prefix extended by the new
node. -/
def pathViaCostAux (g : TraversionGraph) :
    List ConvertPathNode → List Nat → ℚ
  | _, [] => 0
  | pre, eIdx :: rest =>
    match g.edges.get? eIdx with
    | none => 0
    | some e =>
      e.cost
        + calculateAdaptiveCost g.categoryAdaptiveCosts
            (pre ++ [⟨g.handlers.find? (fun h => h.name == e.handler), e.toRef.format⟩])
        + pathViaCostAux g
            (pre ++ [⟨g.handlers.find? (fun h => h.name == e.handler), e.toRef.format⟩]) rest

/-- Total cost (edge costs plus per-expansion adaptive additions) of the path
realized by an edge-index list starting at `fromNode`. -/
def pathViaCost (g : TraversionGraph) (fromNode : ConvertPathNode)
    (edgeIdxs : List Nat) : ℚ :=
  pathViaCostAux g [fromNode] edgeIdxs

/-- Claim-side notion of a yieldable path: it starts at the source vertex,
follows existing edges with resolvable handlers to the target vertex, and
passes the safety check and the yield guard that `searchPath` applies before
yielding. -/
def isYieldableVia (g : TraversionGraph) (fromNode toNode : ConvertPathNode)
    (simpleMode : Bool) (edgeIdxs : List Nat) : Bool :=
  let fromIndex := jsFindIndex (fun node => node.mime == fromNode.format.mime) g.nodes
  let toIndex := jsFindIndex (fun node => node.mime == toNode.format.mime) g.nodes
  !(fromIndex == -1) && !(toIndex == -1)
    && edgeIdxs.all (fun eIdx =>
        match g.edges.get? eIdx with
        | none => false
        | some e => (g.handlers.find? (fun h => h.name == e.handler)).isSome)
    && chainEndIndex g fromIndex.toNat edgeIdxs == some toIndex.toNat
    && !(!g.disableSafeChecks && hasImageVideoAudioTriple (pathViaEdges g fromNode edgeIdxs))
    && searchYieldOk toNode simpleMode (pathViaEdges g fromNode edgeIdxs)

/-- Counterexample graph for the minimality half of C1: one source format
`image/src`, two intermediate vertices `video/v` and `text/w`, one target
`audio/a`, and four single-edge handlers.  Safe checks are disabled so the
`image, video, audio` triple may be yielded. -/
def cex1FmtSrc : FileFormat := ⟨"S", "s", "s", "image/src", "s", true, false, true, .str "image"⟩

def cex1FmtVTo : FileFormat := ⟨"V", "v", "v", "video/v", "v", false, true, true, .str "video"⟩

def cex1FmtVFrom : FileFormat := ⟨"V", "v", "v", "video/v", "v", true, false, true, .str "video"⟩

def cex1FmtWTo : FileFormat := ⟨"W", "w", "w", "text/w", "w", false, true, true, .str "text"⟩

def cex1FmtWFrom : FileFormat := ⟨"W", "w", "w", "text/w", "w", true, false, true, .str "text"⟩

def cex1FmtA : FileFormat := ⟨"A", "a", "a", "audio/a", "a", false, true, true, .str "audio"⟩

def cex1H0 : FormatHandler := ⟨"h0", some [cex1FmtSrc, cex1FmtVTo], true, .ok none, exDoConvert⟩

def cex1H1 : FormatHandler := ⟨"h1", some [cex1FmtSrc, cex1FmtWTo], true, .ok none, exDoConvert⟩

def cex1H2 : FormatHandler := ⟨"h2", some [cex1FmtVFrom, cex1FmtA], true, .ok none, exDoConvert⟩

def cex1H3 : FormatHandler := ⟨"h3", some [cex1FmtWFrom, cex1FmtVTo], true, .ok none, exDoConvert⟩

def cex1Handlers : List FormatHandler := [cex1H0, cex1H1, cex1H2, cex1H3]

def cex1Cache : List (String × List FileFormat) :=
  [("h0", [cex1FmtSrc, cex1FmtVTo]), ("h1", [cex1FmtSrc, cex1FmtWTo]),
    ("h2", [cex1FmtVFrom, cex1FmtA]), ("h3", [cex1FmtWFrom, cex1FmtVTo])]

def cex1Graph : TraversionGraph := (TraversionGraph.new true).init cex1Cache cex1Handlers false

def cex1Src : ConvertPathNode := ⟨some cex1H0, cex1FmtSrc⟩

def cex1Dst : ConvertPathNode := ⟨some cex1H2, cex1FmtA⟩

/-- The graph `init` produces from the counterexample inputs, written out
literally so that the search loop can be evaluated state by state. -/
def cex1GraphL : TraversionGraph :=
  ⟨true, cex1Handlers,
   [⟨"image/src", [0, 1]⟩, ⟨"video/v", [2]⟩, ⟨"text/w", [3]⟩, ⟨"audio/a", []⟩],
   [⟨⟨cex1FmtSrc, 0⟩, ⟨cex1FmtVTo, 1⟩, "h0", 5/4⟩,
    ⟨⟨cex1FmtSrc, 0⟩, ⟨cex1FmtWTo, 2⟩, "h1", 7/4⟩,
    ⟨⟨cex1FmtVFrom, 1⟩, ⟨cex1FmtA, 3⟩, "h2", 57/20⟩,
    ⟨⟨cex1FmtWFrom, 2⟩, ⟨cex1FmtVTo, 1⟩, "h3", 9/4⟩],
   defaultCategoryChangeCosts, defaultCategoryAdaptiveCosts⟩

def cex1Cmp : QueueNode → QueueNode → ℚ := fun a b => a.cost - b.cost

/-- Successive frontier frames of the counterexample run, written out so that
each loop iteration can be checked by evaluation with a literal input queue. -/
def cex1FrameSrc : QueueNode := ⟨0, 0, [cex1Src], 0⟩

def cex1FrameV : QueueNode := ⟨1, 5/4, [cex1Src, ⟨some cex1H0, cex1FmtVTo⟩], 1⟩

def cex1FrameW : QueueNode := ⟨2, 7/4, [cex1Src, ⟨some cex1H1, cex1FmtWTo⟩], 1⟩

def cex1FrameA : QueueNode :=
  ⟨3, 100041/10, [cex1Src, ⟨some cex1H0, cex1FmtVTo⟩, ⟨some cex1H2, cex1FmtA⟩], 2⟩

def cex1FrameV2 : QueueNode :=
  ⟨1, 4, [cex1Src, ⟨some cex1H1, cex1FmtWTo⟩, ⟨some cex1H3, cex1FmtVTo⟩], 3⟩

set_option maxRecDepth 2000 in
/-- C1, minimality half, counterexample: on `cex1Graph` the search yields
exactly one path, `image/src → video/v → audio/a`, at cost 10004.1 (its last
step triggers the 10000 adaptive `[image, video, audio]` cost), while the
yieldable path `image/src → text/w → video/v → audio/a` (edge indices 1, 3, 2)
costs only 6.85: the cheap path is pruned because vertex `video/v` was already
visited by the time the frame through `text/w` could expand towards it, so the
first (and only) yield is not of minimum cost among all yieldable paths.  The
proof steps the loop one iteration at a time through the literal frontier
states. -/
theorem searchPath_first_yield_minimality_counterexample :
    isYieldableVia cex1Graph cex1Src cex1Dst true [1, 3, 2] = true
    ∧ (cex1Graph.searchPath cex1Src cex1Dst true 12).map QueueNode.cost = [10004.1]
    ∧ pathViaCost cex1Graph cex1Src [1, 3, 2] = 6.85
    ∧ pathViaCost cex1Graph cex1Src [1, 3, 2] < 10004.1 := by
  have hq : cex1Graph = cex1GraphL := by with_unfolding_all rfl
  refine ⟨?_, ?_, ?_, ?_⟩
  · rw [hq]
    exact of_decide_eq_true (by with_unfolding_all rfl)
  · rw [hq]
    have s0 : cex1GraphL.searchPath cex1Src cex1Dst true 12
        = searchLoop cex1GraphL cex1Dst 3 true 12 ⟨[cex1FrameSrc], cex1Cmp⟩ [] := by
      with_unfolding_all rfl
    have s1 : searchLoop cex1GraphL cex1Dst 3 true 12 ⟨[cex1FrameSrc], cex1Cmp⟩ []
        = searchLoop cex1GraphL cex1Dst 3 true 11
            ⟨[cex1FrameV, cex1FrameW], cex1Cmp⟩ [0] := by
      with_unfolding_all rfl
    have s2 : searchLoop cex1GraphL cex1Dst 3 true 11 ⟨[cex1FrameV, cex1FrameW], cex1Cmp⟩ [0]
        = searchLoop cex1GraphL cex1Dst 3 true 10
            ⟨[cex1FrameW, cex1FrameA], cex1Cmp⟩ [0, 1] := by
      with_unfolding_all rfl
    have s3 : searchLoop cex1GraphL cex1Dst 3 true 10
          ⟨[cex1FrameW, cex1FrameA], cex1Cmp⟩ [0, 1]
        = searchLoop cex1GraphL cex1Dst 3 true 9
            ⟨[cex1FrameV2, cex1FrameA], cex1Cmp⟩ [0, 1, 2] := by
      with_unfolding_all rfl
    have s4 : searchLoop cex1GraphL cex1Dst 3 true 9
          ⟨[cex1FrameV2, cex1FrameA], cex1Cmp⟩ [0, 1, 2]
        = searchLoop cex1GraphL cex1Dst 3 true 8 ⟨[cex1FrameA], cex1Cmp⟩ [0, 1, 2] := by
      with_unfolding_all rfl
    have s5 : searchLoop cex1GraphL cex1Dst 3 true 8 ⟨[cex1FrameA], cex1Cmp⟩ [0, 1, 2]
        = cex1FrameA :: searchLoop cex1GraphL cex1Dst 3 true 7 ⟨[], cex1Cmp⟩ [0, 1, 2] := by
      with_unfolding_all rfl
    have s6 : searchLoop cex1GraphL cex1Dst 3 true 7 ⟨[], cex1Cmp⟩ [0, 1, 2] = [] := by
      with_unfolding_all rfl
    rw [s0, s1, s2, s3, s4, s5, s6]
    with_unfolding_all rfl
  · rw [hq]
    exact of_decide_eq_true (by with_unfolding_all rfl)
  · rw [hq]
    exact of_decide_eq_true (by with_unfolding_all rfl)

theorem chain_le_head_weaken {a b : ℚ} {l : List ℚ}
    (h : List.Chain' (· ≤ ·) (a :: l)) (hba : b ≤ a) :
    List.Chain' (· ≤ ·) (b :: l) := by
  cases l with
  | nil => simp
  | cons c t =>
    rcases List.chain'_cons.mp h with ⟨hac, ht⟩
    exact List.chain'_cons.mpr ⟨le_trans hba hac, ht⟩

theorem foldl_adaptiveStep_le (p : CategoryAdaptiveCost → Bool) :
    ∀ (tbl : List CategoryAdaptiveCost), (∀ c ∈ tbl, 0 ≤ c.cost) → ∀ acc : ℚ,
      acc ≤ tbl.foldl (fun cost c => if p c then cost + c.cost else cost) acc := by
  intro tbl
  induction tbl with
  | nil => intro _ acc; simp
  | cons c t ih =>
    intro h acc
    simp only [List.foldl_cons]
    have hc : 0 ≤ c.cost := h c (List.mem_cons_self c t)
    have ht : ∀ x ∈ t, 0 ≤ x.cost := fun x hx => h x (List.mem_cons_of_mem c hx)
    refine le_trans ?_ (ih ht _)
    split
    · linarith
    · exact le_refl acc

theorem calculateAdaptiveCost_nonneg (tbl : List CategoryAdaptiveCost)
    (path : List ConvertPathNode) (h : ∀ c ∈ tbl, 0 ≤ c.cost) :
    0 ≤ calculateAdaptiveCost tbl path := by
  unfold calculateAdaptiveCost
  exact foldl_adaptiveStep_le
    (fun c => adaptiveLoop (categoriesInPath path) c.categories
      ((categoriesInPath path).length - 1 : Int) ((c.categories.length : Int) - 1))
    tbl h 0

theorem expandEdges_spec (g : TraversionGraph) (current : QueueNode) (visited : List Nat)
    (queue : PriorityQueue QueueNode)
    (hedges : ∀ e ∈ g.edges, 0 ≤ e.cost)
    (hadapt : ∀ c ∈ g.categoryAdaptiveCosts, 0 ≤ c.cost)
    (hcmp : queue.comparator = fun a b => a.cost - b.cost)
    (hheap : IsHeap QueueNode.cost queue.queue)
    (hbound : ∀ x ∈ queue.queue, current.cost ≤ x.cost) :
    (expandEdges g current visited queue).comparator = (fun a b => a.cost - b.cost)
    ∧ IsHeap QueueNode.cost (expandEdges g current visited queue).queue
    ∧ ∀ x ∈ (expandEdges g current visited queue).queue, current.cost ≤ x.cost := by
  unfold expandEdges
  refine foldl_preserves
    (fun q : PriorityQueue QueueNode =>
      q.comparator = (fun a b => a.cost - b.cost)
      ∧ IsHeap QueueNode.cost q.queue
      ∧ ∀ x ∈ q.queue, current.cost ≤ x.cost)
    (expandStep g current visited) ?_ _ queue ⟨hcmp, hheap, hbound⟩
  intro q eIdx hq
  obtain ⟨hc, hh, hb⟩ := hq
  unfold expandStep
  split
  · exact ⟨hc, hh, hb⟩
  case h_2 edge heq =>
    split
    · exact ⟨hc, hh, hb⟩
    · split
      · exact ⟨hc, hh, hb⟩
      · rename_i handler hfind
        refine ⟨?_, ?_, ?_⟩
        · rw [PriorityQueue.add_comparator]
          exact hc
        · exact PriorityQueue.add_isHeap QueueNode.cost q _ (fun a b => by rw [hc]) hh
        · intro x hx
          rcases PriorityQueue.mem_add q _ x hx with hx1 | hx2
          · subst hx1
            have hec : 0 ≤ edge.cost := hedges edge (List.get?_mem heq)
            have hac : 0 ≤ calculateAdaptiveCost g.categoryAdaptiveCosts
                (current.path ++ [⟨some handler, edge.toRef.format⟩]) :=
              calculateAdaptiveCost_nonneg _ _ hadapt
            simp only [QueueNode.cost]
            linarith
          · exact hb x hx2

theorem searchLoop_costs_chain (g : TraversionGraph) (toNode : ConvertPathNode)
    (toIndex : Nat) (simpleMode : Bool)
    (hedges : ∀ e ∈ g.edges, 0 ≤ e.cost)
    (hadapt : ∀ c ∈ g.categoryAdaptiveCosts, 0 ≤ c.cost) :
    ∀ (fuel : Nat) (queue : PriorityQueue QueueNode) (visited : List Nat) (lb : ℚ),
      queue.comparator = (fun a b => a.cost - b.cost) →
      IsHeap QueueNode.cost queue.queue →
      (∀ x ∈ queue.queue, lb ≤ x.cost) →
      List.Chain' (· ≤ ·)
        (lb :: (searchLoop g toNode toIndex simpleMode fuel queue visited).map QueueNode.cost) := by
  intro fuel
  induction fuel with
  | zero =>
    intro queue visited lb _ _ _
    simp [searchLoop]
  | succ fuel ih =>
    intro queue visited lb hcmp hheap hbound
    rcases hpoll : queue.poll with ⟨opt, queue'⟩
    cases opt with
    | none =>
      simp only [searchLoop, hpoll]
      simp
    | some current =>
      have hspec := PriorityQueue.poll_spec QueueNode.cost queue current queue'
        (fun a b => by rw [hcmp]) hheap hpoll
      obtain ⟨hmemr, hroot, hheap', hsub, hcmpq'⟩ := hspec
      have hlb : lb ≤ current.cost := hbound current hmemr
      have hcmp' : queue'.comparator = fun a b => a.cost - b.cost := by
        rw [hcmpq', hcmp]
      have hbound' : ∀ x ∈ queue'.queue, current.cost ≤ x.cost :=
        fun x hx => hroot x (hsub x hx)
      simp only [searchLoop, hpoll]
      split
      · exact chain_le_head_weaken (ih queue' visited current.cost hcmp' hheap' hbound') hlb
      · split
        · split
          · exact chain_le_head_weaken (ih queue' visited current.cost hcmp' hheap' hbound') hlb
          · split
            · rw [List.map_cons]
              refine List.chain'_cons.mpr ⟨hlb, ?_⟩
              exact ih queue' visited current.cost hcmp' hheap' hbound'
            · exact chain_le_head_weaken (ih queue' visited current.cost hcmp' hheap' hbound') hlb
        · have hexp := expandEdges_spec g current (visited ++ [current.index]) queue'
            hedges hadapt hcmp' hheap' hbound'
          exact chain_le_head_weaken
            (ih _ (visited ++ [current.index]) current.cost hexp.1 hexp.2.1 hexp.2.2) hlb

/-- C1 (amended): for every graph whose edge costs and adaptive additions are
non-negative, `searchPath` yields paths in non-decreasing total cost; in
particular the first yielded path has minimum cost among all *yielded* paths.
(The minimality-over-all-yieldable-paths half of the original claim is false:
see the counterexample above.) -/
theorem searchPath_yield_costs_sorted (g : TraversionGraph)
    (fromNode toNode : ConvertPathNode) (simpleMode : Bool) (fuel : Nat)
    (hedges : ∀ e ∈ g.edges, 0 ≤ e.cost)
    (hadapt : ∀ c ∈ g.categoryAdaptiveCosts, 0 ≤ c.cost) :
    List.Sorted (· ≤ ·)
      ((g.searchPath fromNode toNode simpleMode fuel).map QueueNode.cost) := by
  unfold TraversionGraph.searchPath
  dsimp only
  split
  · simp
  · have hq0 : ((PriorityQueue.mk ([] : List QueueNode) fun a b => a.cost - b.cost).add
        ⟨(jsFindIndex (fun node => node.mime == fromNode.format.mime) g.nodes).toNat,
          0, [fromNode], 0⟩).comparator = fun a b => a.cost - b.cost := by
      rw [PriorityQueue.add_comparator]
    have hh0 : IsHeap QueueNode.cost ((PriorityQueue.mk ([] : List QueueNode)
        fun a b => a.cost - b.cost).add
        ⟨(jsFindIndex (fun node => node.mime == fromNode.format.mime) g.nodes).toNat,
          0, [fromNode], 0⟩).queue := by
      refine PriorityQueue.add_isHeap QueueNode.cost _ _ (fun a b => rfl) ?_
      intro j hj0 hjlen
      simp at hjlen
    have hb0 : ∀ x ∈ ((PriorityQueue.mk ([] : List QueueNode)
        fun a b => a.cost - b.cost).add
        ⟨(jsFindIndex (fun node => node.mime == fromNode.format.mime) g.nodes).toNat,
          0, [fromNode], 0⟩).queue, (0 : ℚ) ≤ x.cost := by
      intro x hx
      rcases PriorityQueue.mem_add _ _ x hx with h1 | h1
      · subst h1
        exact le_refl 0
      · simp at h1
    have hchain := searchLoop_costs_chain g toNode
      (jsFindIndex (fun node => node.mime == toNode.format.mime) g.nodes).toNat
      simpleMode hedges hadapt fuel _ [] 0 hq0 hh0 hb0
    have htail := hchain.tail
    simpa using List.chain'_iff_pairwise.mp htail

/-- Witness for the amended C1 theorem: the shipped default tables give
non-negative edge and adaptive costs on the example graph. -/
theorem searchPath_yield_costs_sorted_witness :
    List.Sorted (· ≤ ·)
      ((exGraphA.searchPath ⟨some exHandlerA, cexFmtPng⟩ ⟨some exHandlerA, cexFmtWavA⟩
        true 30).map QueueNode.cost) :=
  searchPath_yield_costs_sorted exGraphA ⟨some exHandlerA, cexFmtPng⟩
    ⟨some exHandlerA, cexFmtWavA⟩ true 30
    (of_decide_eq_true (by with_unfolding_all rfl))
    (of_decide_eq_true (by with_unfolding_all rfl))

/-! ### C2: the safety check on yielded paths -/

/-- Claim-side primary category of a node: the category string itself, or the
first entry of a category list; `none` when the category is absent or the list
is empty. -/
def primaryCategory (c : CategoryVal) : Option String :=
  match c with
  | .undef => none
  | .str s => some s
  | .list [] => none
  | .list (t :: _) => some t

/-- Claim-side safety predicate: the path contains three consecutive nodes
whose primary categories are image, video, audio in that order. -/
def hasPrimaryTriple : List ConvertPathNode → Bool
  | a :: b :: c :: rest =>
    (primaryCategory a.format.category == some "image"
      && primaryCategory b.format.category == some "video"
      && primaryCategory c.format.category == some "audio")
    || hasPrimaryTriple (b :: c :: rest)
  | _ => false

theorem primaryCategory_flat (c : CategoryVal) (tag : String)
    (h : primaryCategory c = some tag) : catFlatIncludes c tag = true := by
  cases c with
  | undef => simp [primaryCategory] at h
  | str s =>
    simp [primaryCategory] at h
    subst h
    simp [catFlatIncludes]
  | list l =>
    cases l with
    | nil => simp [primaryCategory] at h
    | cons t rest =>
      simp [primaryCategory] at h
      subst h
      simp [catFlatIncludes]

theorem hasPrimaryTriple_imp (path : List ConvertPathNode)
    (h : hasPrimaryTriple path = true) : hasImageVideoAudioTriple path = true := by
  induction path with
  | nil => simp [hasPrimaryTriple] at h
  | cons a rest ih =>
    cases rest with
    | nil => simp [hasPrimaryTriple] at h
    | cons b rest2 =>
      cases rest2 with
      | nil => simp [hasPrimaryTriple] at h
      | cons c rest3 =>
        simp only [hasPrimaryTriple, Bool.or_eq_true, Bool.and_eq_true] at h
        rcases h with ⟨⟨ha, hb⟩, hc⟩ | h1
        · unfold hasImageVideoAudioTriple
          rw [primaryCategory_flat _ _ (beq_iff_eq.mp ha),
            primaryCategory_flat _ _ (beq_iff_eq.mp hb),
            primaryCategory_flat _ _ (beq_iff_eq.mp hc)]
          rfl
        · have h2 := ih h1
          unfold hasImageVideoAudioTriple
          rw [h2]
          simp

theorem searchLoop_safe_no_triple (g : TraversionGraph) (toNode : ConvertPathNode)
    (toIndex : Nat) (simpleMode : Bool) (hds : g.disableSafeChecks = false) :
    ∀ (fuel : Nat) (queue : PriorityQueue QueueNode) (visited : List Nat)
      (frame : QueueNode),
      frame ∈ searchLoop g toNode toIndex simpleMode fuel queue visited →
      hasImageVideoAudioTriple frame.path = false := by
  intro fuel
  induction fuel with
  | zero =>
    intro queue visited frame hmem
    simp [searchLoop] at hmem
  | succ fuel ih =>
    intro queue visited frame hmem
    rcases hpoll : queue.poll with ⟨opt, queue'⟩
    cases opt with
    | none =>
      simp only [searchLoop, hpoll] at hmem
      simp at hmem
    | some current =>
      simp only [searchLoop, hpoll] at hmem
      split at hmem
      · exact ih queue' visited frame hmem
      · split at hmem
        · split at hmem
          · exact ih queue' visited frame hmem
          · rename_i hguard
            split at hmem
            · rcases List.mem_cons.mp hmem with h1 | h1
              · subst h1
                rw [hds] at hguard
                simpa using hguard
              · exact ih queue' visited frame h1
            · exact ih queue' visited frame hmem
        · exact ih _ _ frame hmem

/-- C2: with safe checks enabled (`disableSafeChecks = false`) no path yielded
by `searchPath` contains three consecutive nodes whose primary categories are
image, video, audio in that order (the skipped code path rejects even the
stronger flattened-membership triple, which subsumes the primary one). -/
theorem searchPath_no_primary_image_video_audio_triple (g : TraversionGraph)
    (fromNode toNode : ConvertPathNode) (simpleMode : Bool) (fuel : Nat)
    (frame : QueueNode)
    (hds : g.disableSafeChecks = false)
    (hmem : frame ∈ g.searchPath fromNode toNode simpleMode fuel) :
    hasPrimaryTriple frame.path = false := by
  by_contra hcon
  have htrip : hasPrimaryTriple frame.path = true := by
    cases hv : hasPrimaryTriple frame.path
    · exact absurd hv hcon
    · rfl
  have hflat := hasPrimaryTriple_imp frame.path htrip
  unfold TraversionGraph.searchPath at hmem
  dsimp only at hmem
  split at hmem
  · simp at hmem
  · have := searchLoop_safe_no_triple g toNode _ simpleMode hds fuel _ [] frame hmem
    rw [hflat] at this
    exact absurd this (by simp)

theorem headD_mem (l : List α) (d : α) (h : l.isEmpty = false) : l.headD d ∈ l := by
  cases l with
  | nil => simp at h
  | cons a t => simp

/-- Witness for C2 on the example graph (safe checks enabled): the first
yielded frame of the png → wav search carries no primary
image/video/audio triple. -/
theorem searchPath_no_primary_image_video_audio_triple_witness :
    hasPrimaryTriple
      (((exGraphA.searchPath ⟨some exHandlerA, cexFmtPng⟩ ⟨some exHandlerA, cexFmtWavA⟩
        true 30).headD default).path) = false :=
  searchPath_no_primary_image_video_audio_triple exGraphA
    ⟨some exHandlerA, cexFmtPng⟩ ⟨some exHandlerA, cexFmtWavA⟩ true 30
    ((exGraphA.searchPath ⟨some exHandlerA, cexFmtPng⟩ ⟨some exHandlerA, cexFmtWavA⟩
        true 30).headD default)
    (by with_unfolding_all rfl)
    (headD_mem _ _ (by with_unfolding_all rfl))

/-! ### The conversion executor (`attemptConvertPath` / `tryConvertByTraversing`) -/

/-- Entry of `allOptions` (`FormatOption` in the executor module). -/
structure FormatOption where
  format : FileFormat
  handler : FormatHandler
  index : Nat

/-- The module-level `supportedFormatCache` Map, as an association list in
insertion order. -/
abbrev FormatCache := List (String × List FileFormat)

/-- `supportedFormatCache.get(name)`. -/
def cacheGet (cache : FormatCache) (name : String) : Option (List FileFormat) :=
  (cache.find? (fun p => p.1 == name)).map (fun p => p.2)

/-- `supportedFormatCache.set(name, v)`: replace in place or append. -/
def cacheSet (cache : FormatCache) (name : String) (v : List FileFormat) : FormatCache :=
  if cache.any (fun p => p.1 == name) then
    cache.map (fun p => if p.1 == name then (p.1, v) else p)
  else cache ++ [(name, v)]

/-- Body of one `attemptConvertPath` step after the handler is ready and
`supportedFormats` resolved: `throw` when the cache has no entry (undefined is
falsy), locate the input descriptor with `find(...)!` — when absent the
handler is invoked with an undefined input format — call `doConvert`, and
treat a thrown error or an output file with empty bytes as failure.  The
returned cache is threaded because `set` mutations survive a failed
attempt. -/
def attemptStepRun (cache : FormatCache) (files : List FileData)
    (prev next : ConvertPathNode) (handler : FormatHandler)
    (supportedFormats : Option (List FileFormat)) :
    Option (List FileData) × FormatCache :=
  match supportedFormats with
  | none => (none, cache)
  | some fmts =>
    match handler.doConvert files
        (fmts.find? (fun c => c.mime == prev.format.mime && c.fromFlag)) next.format with
    | .error _ => (none, cache)
    | .ok files2 =>
      if files2.any (fun c => c.bytes.length == 0) then (none, cache)
      else (some files2, cache)

/-- One step of `attemptConvertPath` for the pair (prev, next): read the
cache, run `init()` when the handler is not ready (a throwing init aborts; a
truthy `supportedFormats` after init updates the cache and is used directly),
then convert.  A missing handler on the node would make the JS throw inside
the catch handler itself; search-built nodes always carry one, and the case is
modelled as a plain failure. -/
def attemptStep (cache : FormatCache) (files : List FileData)
    (prev next : ConvertPathNode) : Option (List FileData) × FormatCache :=
  match next.handler with
  | none => (none, cache)
  | some handler =>
    if !handler.ready then
      match handler.initResult with
      | .error _ => (none, cache)
      | .ok newFormats =>
        match newFormats with
        | some fmts =>
          attemptStepRun (cacheSet cache handler.name fmts) files prev next handler (some fmts)
        | none =>
          attemptStepRun cache files prev next handler (cacheGet cache handler.name)
    else
      attemptStepRun cache files prev next handler (cacheGet cache handler.name)

/-- The `for (let i = 0; i < path.length - 1; i++)` loop of
`attemptConvertPath`, threading the files and the cache. -/
def attemptConvertPathGo (cache : FormatCache) (files : List FileData) :
    List ConvertPathNode → Option (List FileData) × FormatCache
  | prev :: next :: rest =>
    match attemptStep cache files prev next with
    | (none, cache2) => (none, cache2)
    | (some files2, cache2) => attemptConvertPathGo cache2 files2 (next :: rest)
  | _ => (some files, cache)

/-- `attemptConvertPath`: run every step; on success return the converted
files together with the attempted path. -/
def attemptConvertPath (cache : FormatCache) (files : List FileData)
    (path : List ConvertPathNode) :
    Option (List FileData × List ConvertPathNode) × FormatCache :=
  match attemptConvertPathGo cache files path with
  | (none, cache2) => (none, cache2)
  | (some files2, cache2) => (some (files2, path), cache2)

/-- JS strict equality `path.at(-1)?.handler === toNode.handler` between
handler slots: object identity is modelled by handler-name equality (the
handler registry holds distinctly named singletons); two undefined slots are
equal. -/
def handlerEq : Option FormatHandler → Option FormatHandler → Bool
  | none, none => true
  | some a, some b => a.name == b.name
  | _, _ => false

/-- Target substitution of `tryConvertByTraversing`: when the last node's
handler is the target's handler, replace the last node by the target node (so
the requested format object, not the graph's, is converted to).  On an empty
path the JS write `path[-1] = toNode` changes no element. -/
def substituteTarget (toNode : ConvertPathNode) (path : List ConvertPathNode) :
    List ConvertPathNode :=
  match path.getLast? with
  | none => path
  | some last =>
    if handlerEq last.handler toNode.handler then path.dropLast ++ [toNode] else path

/-- The `for await (const path of ...)` loop of `tryConvertByTraversing`: try
each candidate path, returning the first success; cache updates made by failed
attempts persist. -/
def tryConvertLoop (toNode : ConvertPathNode) :
    FormatCache → List FileData → List (List ConvertPathNode) →
    Option (List FileData × List ConvertPathNode) × FormatCache
  | cache, _, [] => (none, cache)
  | cache, files, path :: rest =>
    match attemptConvertPath cache files (substituteTarget toNode path) with
    | (none, cache2) => tryConvertLoop toNode cache2 files rest
    | (some res, cache2) => (some res, cache2)

/-- `tryConvertByTraversing`: build the endpoint nodes from the chosen format
options and fold the attempt loop over the paths yielded by `searchPath`
(bounded by `fuel` loop iterations). -/
def tryConvertByTraversing (g : TraversionGraph) (simpleMode : Bool) (fuel : Nat)
    (cache : FormatCache) (files : List FileData) (fromOpt toOpt : FormatOption) :
    Option (List FileData × List ConvertPathNode) × FormatCache :=
  tryConvertLoop ⟨some toOpt.handler, toOpt.format⟩ cache files
    ((g.searchPath ⟨some fromOpt.handler, fromOpt.format⟩ ⟨some toOpt.handler, toOpt.format⟩
      simpleMode fuel).map QueueNode.path)

/-! ### C6: error isolation -/

/-- C6: a `doConvert` error aborts only the current attempt; an output file
with empty bytes likewise; and a failed attempt makes `tryConvertByTraversing`
move on to the next candidate path with the updated cache. -/
theorem attemptConvertPath_error_isolation :
    (∀ (cache : FormatCache) (files : List FileData) (prev next : ConvertPathNode)
        (rest : List ConvertPathNode) (handler : FormatHandler) (fmts : List FileFormat)
        (msg : String),
      next.handler = some handler →
      handler.ready = true →
      cacheGet cache handler.name = some fmts →
      handler.doConvert files
          (fmts.find? (fun c => c.mime == prev.format.mime && c.fromFlag)) next.format
        = .error msg →
      attemptConvertPath cache files (prev :: next :: rest) = (none, cache))
    ∧ (∀ (cache : FormatCache) (files : List FileData) (prev next : ConvertPathNode)
        (rest : List ConvertPathNode) (handler : FormatHandler) (fmts : List FileFormat)
        (files2 : List FileData),
      next.handler = some handler →
      handler.ready = true →
      cacheGet cache handler.name = some fmts →
      handler.doConvert files
          (fmts.find? (fun c => c.mime == prev.format.mime && c.fromFlag)) next.format
        = .ok files2 →
      files2.any (fun c => c.bytes.length == 0) = true →
      attemptConvertPath cache files (prev :: next :: rest) = (none, cache))
    ∧ (∀ (toNode : ConvertPathNode) (cache cache2 : FormatCache) (files : List FileData)
        (path : List ConvertPathNode) (rest : List (List ConvertPathNode)),
      attemptConvertPath cache files (substituteTarget toNode path) = (none, cache2) →
      tryConvertLoop toNode cache files (path :: rest)
        = tryConvertLoop toNode cache2 files rest) := by
  refine ⟨?_, ?_, ?_⟩
  · intro cache files prev next rest handler fmts msg hh hready hcache hdc
    simp only [attemptConvertPath, attemptConvertPathGo, attemptStep, hh, hready,
      Bool.not_true, attemptStepRun, hcache, hdc]
    rfl
  · intro cache files prev next rest handler fmts files2 hh hready hcache hdc hempty
    simp only [attemptConvertPath, attemptConvertPathGo, attemptStep, hh, hready,
      Bool.not_true, attemptStepRun, hcache, hdc, hempty, if_true]
    rfl
  · intro toNode cache cache2 files path rest hfail
    simp only [tryConvertLoop, hfail]

def cex6Handler : FormatHandler :=
  ⟨"c6", some [], true, .ok none, fun _ _ _ => .error "boom"⟩

def cex6bFiles : List FileData := [⟨"empty", []⟩]

def cex6bHandler : FormatHandler :=
  ⟨"c6b", some [], true, .ok none, fun _ _ _ => .ok [⟨"empty", []⟩]⟩

def cex6Files : List FileData := [⟨"f", [1]⟩]

/-- Witness instantiating the three C6 conjuncts on concrete handlers: one
whose `doConvert` throws, one producing an empty output file, and the failing
attempt advancing the candidate loop. -/
theorem attemptConvertPath_error_isolation_witness :
    attemptConvertPath [("c6", [])] cex6Files
        [⟨some cex6Handler, cexFmtPng⟩, ⟨some cex6Handler, cexFmtMp3⟩]
      = (none, [("c6", [])])
    ∧ attemptConvertPath [("c6b", [])] cex6Files
        [⟨some cex6bHandler, cexFmtPng⟩, ⟨some cex6bHandler, cexFmtMp3⟩]
      = (none, [("c6b", [])])
    ∧ tryConvertLoop ⟨some cex6Handler, cexFmtMp3⟩ [("c6", [])] cex6Files
        [[⟨some cex6Handler, cexFmtPng⟩, ⟨some cex6Handler, cexFmtMp3⟩]]
      = tryConvertLoop ⟨some cex6Handler, cexFmtMp3⟩ [("c6", [])] cex6Files [] :=
  ⟨attemptConvertPath_error_isolation.1 [("c6", [])] cex6Files
      ⟨some cex6Handler, cexFmtPng⟩ ⟨some cex6Handler, cexFmtMp3⟩ [] cex6Handler [] "boom"
      rfl rfl rfl rfl,
   attemptConvertPath_error_isolation.2.1 [("c6b", [])] cex6Files
      ⟨some cex6bHandler, cexFmtPng⟩ ⟨some cex6bHandler, cexFmtMp3⟩ [] cex6bHandler []
      cex6bFiles rfl rfl rfl rfl rfl,
   attemptConvertPath_error_isolation.2.2 ⟨some cex6Handler, cexFmtMp3⟩
      [("c6", [])] [("c6", [])] cex6Files
      [⟨some cex6Handler, cexFmtPng⟩, ⟨some cex6Handler, cexFmtMp3⟩] []
      (attemptConvertPath_error_isolation.1 [("c6", [])] cex6Files
        ⟨some cex6Handler, cexFmtPng⟩ ⟨some cex6Handler, cexFmtMp3⟩ [] cex6Handler [] "boom"
        rfl rfl rfl rfl)⟩

/-! ### C7: the missing input-format descriptor -/

def cex7Handler : FormatHandler := ⟨"c7", some [], true, .ok none, exDoConvert⟩

def cex7Prev : ConvertPathNode := ⟨some cex7Handler, cexFmtPng⟩

def cex7Next : ConvertPathNode := ⟨some cex7Handler, cexFmtMp3⟩

def cex7Cache : FormatCache := [("c7", [])]

def cex7Files : List FileData := [⟨"f", [1]⟩]

/-- C7 counterexample: the cached format list of the handler contains no
descriptor matching the previous node's MIME with `from` set, yet the attempt
succeeds and returns the handler's output — the `find(...)!` assertion passes
`undefined` through instead of failing. -/
theorem attemptConvertPath_missing_descriptor_counterexample :
    cacheGet cex7Cache "c7" = some []
    ∧ List.find? (fun c => c.mime == cex7Prev.format.mime && c.fromFlag)
        ([] : List FileFormat) = none
    ∧ (attemptConvertPath cex7Cache cex7Files [cex7Prev, cex7Next]).1.map Prod.fst
        = some cex7Files := by
  refine ⟨rfl, rfl, rfl⟩

/-- C7 (amended): when no input-format descriptor matches, the handler *is*
invoked, with an undefined (`none`) input format; the attempt fails only if
that call throws or its output contains an empty file. -/
theorem attemptStep_missing_descriptor (cache : FormatCache) (files : List FileData)
    (prev next : ConvertPathNode) (handler : FormatHandler) (fmts : List FileFormat)
    (hh : next.handler = some handler)
    (hready : handler.ready = true)
    (hcache : cacheGet cache handler.name = some fmts)
    (hfind : fmts.find? (fun c => c.mime == prev.format.mime && c.fromFlag) = none) :
    attemptStep cache files prev next =
      match handler.doConvert files none next.format with
      | .error _ => (none, cache)
      | .ok files2 =>
        if files2.any (fun c => c.bytes.length == 0) then (none, cache)
        else (some files2, cache) := by
  simp only [attemptStep, hh, hready, Bool.not_true, attemptStepRun, hcache, hfind]
  rfl

/-- Witness for the amended C7 theorem at the concrete counterexample
inputs. -/
theorem attemptStep_missing_descriptor_witness :
    attemptStep cex7Cache cex7Files cex7Prev cex7Next =
      match cex7Handler.doConvert cex7Files none cex7Next.format with
      | .error _ => (none, cex7Cache)
      | .ok files2 =>
        if files2.any (fun c => c.bytes.length == 0) then (none, cex7Cache)
        else (some files2, cex7Cache) :=
  attemptStep_missing_descriptor cex7Cache cex7Files cex7Prev cex7Next cex7Handler []
    rfl rfl rfl rfl

/-! ### C8: missing source or target vertex -/

theorem jsFindIndex_eq_neg_one (p : α → Bool) (l : List α)
    (h : ∀ x ∈ l, p x = false) : jsFindIndex p l = -1 := by
  unfold jsFindIndex
  have hnone : l.findIdx? p = none := List.findIdx?_eq_none_iff.mpr h
  rw [hnone]

/-- C8: when the source or the target MIME labels no vertex, `searchPath`
yields nothing and `tryConvertByTraversing` returns no result. -/
theorem searchPath_missing_vertex (g : TraversionGraph) (simpleMode : Bool) (fuel : Nat)
    (cache : FormatCache) (files : List FileData) (fromOpt toOpt : FormatOption)
    (h : (∀ nd ∈ g.nodes, nd.mime ≠ fromOpt.format.mime)
       ∨ (∀ nd ∈ g.nodes, nd.mime ≠ toOpt.format.mime)) :
    g.searchPath ⟨some fromOpt.handler, fromOpt.format⟩ ⟨some toOpt.handler, toOpt.format⟩
        simpleMode fuel = []
    ∧ (tryConvertByTraversing g simpleMode fuel cache files fromOpt toOpt).1 = none := by
  have hsp : g.searchPath ⟨some fromOpt.handler, fromOpt.format⟩
      ⟨some toOpt.handler, toOpt.format⟩ simpleMode fuel = [] := by
    unfold TraversionGraph.searchPath
    dsimp only
    rcases h with h | h
    · have hfi : jsFindIndex (fun node => node.mime == fromOpt.format.mime) g.nodes = -1 :=
        jsFindIndex_eq_neg_one _ _ (fun x hx => by
          have := h x hx
          simpa using this)
      rw [hfi]
      simp
    · have hti : jsFindIndex (fun node => node.mime == toOpt.format.mime) g.nodes = -1 :=
        jsFindIndex_eq_neg_one _ _ (fun x hx => by
          have := h x hx
          simpa using this)
      rw [hti]
      simp
  refine ⟨hsp, ?_⟩
  unfold tryConvertByTraversing
  rw [hsp]
  rfl

def cex8Fmt : FileFormat :=
  ⟨"Nope", "nope", "nope", "application/nope", "nope", true, true, true, .undef⟩

/-- Witness: converting from png to an unregistered MIME on the example graph
yields no paths and no conversion result. -/
theorem searchPath_missing_vertex_witness :
    exGraphA.searchPath ⟨some exHandlerA, cexFmtPng⟩ ⟨some exHandlerA, cex8Fmt⟩ true 30 = []
    ∧ (tryConvertByTraversing exGraphA true 30 [] cex6Files
        ⟨cexFmtPng, exHandlerA, 0⟩ ⟨cex8Fmt, exHandlerA, 1⟩).1 = none :=
  searchPath_missing_vertex exGraphA true 30 [] cex6Files
    ⟨cexFmtPng, exHandlerA, 0⟩ ⟨cex8Fmt, exHandlerA, 1⟩
    (Or.inr (of_decide_eq_true (by with_unfolding_all rfl)))
